import Mathlib

/-!
# Verification of the oort mind-map construction pipeline

Shallow embedding of the core algorithms of `src/ml` (concept merger,
similarity matrix, group assembler, boundary splitter / chunker, candidate
extractor, chunk-concept merger) together with proofs of the specified
properties.

Conventions:
* `f32` values are modelled exactly as rationals (`ℚ`); the floating-point
  rounding of the implementation is idealised away.
* Rust strings are modelled at the byte level as `List ℕ` (their UTF-8
  bytes), so `len()`, char boundaries and slicing match the source exactly.
* External library calls (ndarray dot/norm, RAKE, TF-IDF, the Porter
  stemmer, Unicode case mapping) are either embedded exactly (dot product,
  norms) or abstracted as explicit parameters with their documented
  contracts as hypotheses.
* Rust `HashMap` accumulation (`entry … and_modify … or_insert`) is
  modelled as an association list in first-insertion order; all proved
  properties are independent of the iteration order.
* Potential library panics (ndarray `dot` on unequal lengths) are
  modelled as an explicit error constructor, since a panic aborts the
  request just like a returned error.
-/

/-! ## Concepts and embeddings (`src/ml/src/dimensionality.rs`) -/

/-- `Concept` (`models/concepts/model.rs`): surface text plus an importance
score in `[0,1]`.  `f32` importance is modelled as `ℚ`. -/
structure ConceptQ where
  concept : String
  importance : ℚ
deriving DecidableEq, Repr

instance : Inhabited ConceptQ := ⟨{ concept := default, importance := 0 }⟩

/-- An embedding vector (`Embedding = Array1<f32>`), modelled as a list of
rationals. -/
abbrev EmbQ := List ℚ

/-- `a.dot(&b)` of ndarray for two 1-D arrays of *equal* length.  (On
unequal lengths ndarray panics; the caller `simPanics` checks for that
case separately, so here the value on unequal lengths is irrelevant.) -/
def dotP (a b : EmbQ) : ℚ := (List.zipWith (fun x y => x * y) a b).sum

/-- Sum of squares of a vector: `norm_l2 a = Real.sqrt (sumSq a)`, and in
particular `norm_l2 a = 0 ↔ sumSq a = 0`. -/
def sumSq (a : EmbQ) : ℚ := (a.map (fun x => x * x)).sum

/-- `cosine_similarity(a, b) > t`, decided exactly over `ℚ` for a
threshold `t ≥ 0` (the code uses `t = similarity_threshold = 0.7` and
`t = 0`).  The source computes `dot(a,b) / (‖a‖·‖b‖)` and returns `0.0`
when either norm is zero; for `t ≥ 0` the comparison
`dot/(‖a‖‖b‖) > t` is equivalent to `dot > 0 ∧ t²·‖a‖²·‖b‖² < dot²`,
which avoids irrational square roots. -/
def cosine_gt (t : ℚ) (a b : EmbQ) : Bool :=
  if sumSq a = 0 ∨ sumSq b = 0 then decide ((0 : ℚ) > t)
  else decide (0 < dotP a b ∧ t * t * (sumSq a * sumSq b) < dotP a b * dotP a b)

/-- The list of index pairs `(i, j)` with `i < j < n`, in the iteration
order of the nested loops `for i in 0..n { for j in (i+1)..n { … } }`. -/
def pairList (n : ℕ) : List (ℕ × ℕ) :=
  (List.range n).flatMap (fun i => (List.range' (i + 1) (n - (i + 1))).map (fun j => (i, j)))

/-- Whether building the full pairwise cosine matrix would hit the ndarray
`dot` panic: some pair has unequal lengths while both norms are nonzero
(`cosine_similarity` early-returns `0.0` before calling `dot` when a norm
is zero, so only such pairs reach `dot`). -/
def simPanics (es : List EmbQ) : Bool :=
  (pairList es.length).any (fun ij =>
    let a := es.getD ij.1 []
    let b := es.getD ij.2 []
    !(decide (sumSq a = 0 ∨ sumSq b = 0)) && decide (a.length ≠ b.length))

/-! ### Union-find (`merge_similar_concepts`, dimensionality.rs:149-174) -/

/-- `find(parent, x)`: follow parent pointers to the root.  The source
uses recursion with path compression; compression does not change any
root, so the embedded version just follows the chain, with fuel `n`
(the union-find forest over `n` nodes has chains of length `< n`). -/
def findRoot (fuel : ℕ) (parent : List ℕ) (x : ℕ) : ℕ :=
  match fuel with
  | 0 => x
  | f + 1 =>
    let p := parent.getD x x
    if p = x then x else findRoot f parent p

/-- `union(parent, x, y)`: link the root of `y` under the root of `x`. -/
def unionRoots (n : ℕ) (parent : List ℕ) (x y : ℕ) : List ℕ :=
  let rx := findRoot n parent x
  let ry := findRoot n parent y
  if rx = ry then parent else parent.set ry rx

/-- The parent array after unioning every pair `(i, j)`, `i < j`, whose
cosine similarity exceeds the threshold (dimensionality.rs:168-174). -/
def buildParent (thr : ℚ) (es : List EmbQ) : List ℕ :=
  (pairList es.length).foldl
    (fun p ij =>
      if cosine_gt thr (es.getD ij.1 []) (es.getD ij.2 []) then
        unionRoots es.length p ij.1 ij.2
      else p)
    (List.range es.length)

/-- `groups.entry(root).or_insert_with(Vec::new).push(i)`: append member
`i` to the entry with key `k`, creating the entry if absent.  The
association list keeps first-insertion order (one concrete order of the
source's `HashMap`; all proved facts are order-independent). -/
def pushEntry (acc : List (ℕ × List ℕ)) (k i : ℕ) : List (ℕ × List ℕ) :=
  match acc with
  | [] => [(k, [i])]
  | (k0, v) :: rest =>
    if k0 = k then (k0, v ++ [i]) :: rest else (k0, v) :: pushEntry rest k i

/-- Collect the union-find groups: for each `i in 0..n`, push `i` onto the
group of its root (dimensionality.rs:176-182). -/
def collectGroups (parent : List ℕ) (n : ℕ) : List (ℕ × List ℕ) :=
  (List.range n).foldl (fun acc i => pushEntry acc (findRoot n parent i) i) []

/-- Average the embeddings of a group (dimensionality.rs:196-204): a
single member is cloned; otherwise the first member's clone is zero-filled
(fixing the dimension), all members are added and the sum divided by the
member count.  (ndarray `+=` requires equal shapes; groups with more than
one member only arise from pairs that passed a similarity comparison with
nonzero norms, hence equal lengths.) -/
def avgEmb (es : List EmbQ) (idxs : List ℕ) : EmbQ :=
  match idxs with
  | [] => []
  | [i] => es.getD i []
  | i :: _ :: _ =>
    let dim := (es.getD i []).length
    let summed := idxs.foldl (fun acc j => List.zipWith (fun x y => x + y) acc (es.getD j []))
      (List.replicate dim 0)
    summed.map (fun x => x / (idxs.length : ℚ))

/-- One merged group `(Vec<String>, Embedding, Vec<f32>, usize)`:
members' texts, averaged embedding, members' importances, union-find
root. -/
structure MergedGroup where
  members : List String
  avg : EmbQ
  importances : List ℚ
  root : ℕ
deriving DecidableEq, Repr

/-- Failure modes of `merge_similar_concepts`.  The first three are the
explicit `ApiError::InternalError` guard returns
(dimensionality.rs:98-121); `dotPanic` models the ndarray `dot` panic on
unequal-length operands reached while filling the similarity matrix. -/
inductive MergeErr where
  | emptyInput
  | lengthMismatch
  | zeroDim
  | dotPanic
deriving DecidableEq, Repr

/-- `merge_similar_concepts` (dimensionality.rs:93-216).  Note: the
non-uniform-dimension check (lines 129-137) only emits `log::warn!` and
does not return; it therefore has no effect here. -/
def merge_similar_concepts (thr : ℚ) (cs : List ConceptQ) (es : List EmbQ) :
    Except MergeErr (List MergedGroup) :=
  if cs.isEmpty ∨ es.isEmpty then .error .emptyInput
  else if cs.length ≠ es.length then .error .lengthMismatch
  else if es.any (fun e => e.length = 0) then .error .zeroDim
  else if simPanics es then .error .dotPanic
  else
    let parent := buildParent thr es
    let groups := collectGroups parent cs.length
    .ok (groups.map (fun g =>
      { members := g.2.map (fun i => (cs.getD i default).concept)
        avg := avgEmb es g.2
        importances := g.2.map (fun i => (cs.getD i default).importance)
        root := g.1 }))

/-! ### Continuous similarity matrix and assembler
(dimensionality.rs:218-337) -/

/-- Point update of a matrix represented as a function. -/
def matUpd (M : ℕ → ℕ → ℚ) (i j : ℕ) (v : ℚ) : ℕ → ℕ → ℚ :=
  fun a b => if a = i ∧ b = j then v else M a b

/-- `build_similarity_matrix` (dimensionality.rs:218-233): start from the
zero matrix and, for each pair `i < j` whose similarity is positive, store
it at `(i,j)` and `(j,i)`.  The similarity values are abstracted as a
function `sim` (in the source, `cosine_similarity` of the groups'
averaged embeddings, a symmetric function). -/
def build_similarity_matrix (n : ℕ) (sim : ℕ → ℕ → ℚ) : ℕ → ℕ → ℚ :=
  (pairList n).foldl
    (fun M ij =>
      if 0 < sim ij.1 ij.2 then
        matUpd (matUpd M ij.1 ij.2 (sim ij.1 ij.2)) ij.2 ij.1 (sim ij.1 ij.2)
      else M)
    (fun _ _ => 0)

/-- `find_connections` (dimensionality.rs:309-321): the indices `j ≠ index`
of the `n`-entry matrix row with strictly positive entry. -/
def find_connections (M : ℕ → ℕ → ℚ) (n index : ℕ) : List ℕ :=
  (List.range n).filter (fun j => j ≠ index ∧ 0 < M index j)

/-- `calculate_importance` (dimensionality.rs:323-337). -/
def calculate_importance (M : ℕ → ℕ → ℚ) (n index : ℕ)
    (members : List String) (imps : List ℚ) : ℚ :=
  let conn : ℚ := (((List.range n).filter (fun j => 0 < M index j)).length : ℚ)
  let cnt : ℚ := (members.length : ℚ)
  let avg : ℚ := if imps.isEmpty then 1/2 else imps.sum / (imps.length : ℚ)
  max (avg * (2/5) + conn * (2/5) + cnt * (1/5)) (1/10)

/-- The assembled output record `ConceptGroup` (dimensionality.rs:9-16). -/
structure ConceptGroupL where
  concepts : List String
  reduced_embedding : EmbQ
  connections : List ℕ
  importance_score : ℚ
  group_id : ℕ
deriving DecidableEq, Repr

/-- `unique_roots` (dimensionality.rs:279-284): the groups' roots, sorted
ascending and deduplicated. -/
def sortedRoots (gs : List MergedGroup) : List ℕ :=
  ((gs.map (fun g => g.root)).insertionSort (fun a b => a ≤ b)).dedup

/-- Loop body of `build_concept_groups` (dimensionality.rs:286-304),
recursing over the remaining groups with `i` the current index; a group
whose index falls outside `positions` is skipped (`continue`). -/
def buildCGAux (gs : List MergedGroup) (positions : List EmbQ) (M : ℕ → ℕ → ℚ) :
    ℕ → List MergedGroup → List ConceptGroupL
  | _, [] => []
  | i, g :: rest =>
    (if i < positions.length then
      [{ concepts := g.members
         reduced_embedding := positions.getD i []
         connections := find_connections M gs.length i
         importance_score := calculate_importance M gs.length i g.members g.importances
         group_id := (sortedRoots gs).indexOf g.root }]
     else []) ++ buildCGAux gs positions M (i + 1) rest

/-- `build_concept_groups` (dimensionality.rs:269-307). -/
def build_concept_groups (gs : List MergedGroup) (positions : List EmbQ)
    (M : ℕ → ℕ → ℚ) : List ConceptGroupL :=
  buildCGAux gs positions M 0 gs

/-! ## Boundary splitter (`src/ml/src/models/concepts/truncation.rs`)

Rust `&str` values are modelled as their UTF-8 byte sequences
(`List ℕ`), so `len()`, `is_char_boundary`, byte slicing and the
`"..."` suffix are exact. -/

/-- A Rust string as its UTF-8 bytes. -/
abbrev BStr := List ℕ

/-- Bytes of an ASCII Lean string literal (used for the constant tables
and concrete test inputs). -/
def strBytes (s : String) : BStr := s.toList.map Char.toNat

/-- UTF-8 continuation byte: `0x80 ≤ b < 0xC0`. -/
def isContByte (b : ℕ) : Bool := decide (128 ≤ b) && decide (b < 192)

/-- `str::is_char_boundary`: true at 0 and at `len`, false beyond `len`,
and otherwise true iff the byte at `i` is not a continuation byte. -/
def is_char_boundary (s : BStr) (i : ℕ) : Bool :=
  if i = 0 then true
  else if i < s.length then !isContByte (s.getD i 0)
  else i = s.length

/-- The downward scan of `floor_char_boundary` (truncation.rs:4-10):
decrement `i` while it is positive and not a char boundary. -/
def floorCB (s : BStr) : ℕ → ℕ
  | 0 => 0
  | i + 1 => if is_char_boundary s (i + 1) then i + 1 else floorCB s i

/-- `floor_char_boundary(s, index)` (truncation.rs:4-10): the largest
char-boundary byte index `≤ min index (len s)`. -/
def floor_char_boundary (s : BStr) (index : ℕ) : ℕ :=
  floorCB s (min index s.length)

/-- Does a Unicode white-space character start at byte `p`?  These are
the UTF-8 encodings of the characters matched by `char::is_whitespace`
and by the regex class `\s` (White_Space property): the six ASCII
white-space bytes plus U+0085, U+00A0, U+1680, U+2000..U+200A, U+2028,
U+2029, U+202F, U+205F and U+3000.  (Out-of-range reads use the sentinel
256, which matches nothing.) -/
def isWsAt (s : BStr) (p : ℕ) : Bool :=
  let b0 := s.getD p 256
  let b1 := s.getD (p + 1) 256
  let b2 := s.getD (p + 2) 256
  (b0 == 9 || b0 == 10 || b0 == 11 || b0 == 12 || b0 == 13 || b0 == 32)
  || (b0 == 194 && (b1 == 133 || b1 == 160))
  || (b0 == 225 && b1 == 154 && b2 == 128)
  || (b0 == 226 && b1 == 128 &&
      ((128 ≤ b2 && b2 ≤ 138) || b2 == 168 || b2 == 169 || b2 == 175))
  || (b0 == 226 && b1 == 129 && b2 == 159)
  || (b0 == 227 && b1 == 128 && b2 == 128)

/-- Last position (if any) at which a white-space character starts:
`rfind(|c: char| c.is_whitespace())`. -/
def lastWsPos (s : BStr) : Option ℕ :=
  ((List.range s.length).filter (fun p => isWsAt s p)).getLast?

/-- ASCII lowercase of one byte (`to_lowercase`; the words compared
against the abbreviation/TLD tables are ASCII, where Rust's Unicode case
mapping coincides with this). -/
def asciiLower (b : ℕ) : ℕ := if 65 ≤ b ∧ b ≤ 90 then b + 32 else b

/-- The `ABBREVIATIONS` table (truncation.rs:13-16). -/
def ABBREVIATIONS : List BStr :=
  [strBytes ("mr"), strBytes ("mrs"), strBytes ("ms"), strBytes ("dr"),
   strBytes ("prof"), strBytes ("sr"), strBytes ("jr"), strBytes ("st"),
   strBytes ("vs"), strBytes ("etc"), strBytes ("inc"), strBytes ("ltd"),
   strBytes ("dept"), strBytes ("approx"), strBytes ("fig"), strBytes ("eq"),
   strBytes ("vol"), strBytes ("no"), strBytes ("gen"), strBytes ("gov"),
   strBytes ("eg"), strBytes ("ie")]

/-- The `TLDS` table (truncation.rs:19). -/
def TLDS : List BStr :=
  [strBytes ("com"), strBytes ("org"), strBytes ("net"), strBytes ("io"),
   strBytes ("edu"), strBytes ("gov"), strBytes ("co")]

/-- `is_abbreviation(text, match_start)` (truncation.rs:22-34): take the
word between the last white-space before the period and `match_start`
inclusive, lowercase it, and test the single-initial / abbreviation /
TLD conditions. -/
def is_abbreviation (text : BStr) (matchStart : ℕ) : Bool :=
  let before := text.take (matchStart + 1)
  let wordStart := match lastWsPos before with
    | none => 0
    | some p => p + 1
  let word := (before.drop wordStart).map asciiLower
  (word.length == 1 && (match word with
    | [b] => decide (97 ≤ b) && decide (b ≤ 122)
    | _ => false))
  || word ∈ ABBREVIATIONS || word ∈ TLDS

/-- A match of the sentence regex `[a-z,)][.!?](\s|$)` starting at byte
`p` of `w`: a lowercase letter, comma or closing paren, then sentence
punctuation, then white-space or end of string.  (All regex matches are
2 bytes + the optional white-space; matches can never overlap, so the
set of `find_iter` matches is exactly the set of positions satisfying
this predicate, in increasing order.) -/
def sentenceMatchAt (w : BStr) (p : ℕ) : Bool :=
  let b0 := w.getD p 256
  let b1 := w.getD (p + 1) 256
  ((decide (97 ≤ b0) && decide (b0 ≤ 122)) || b0 == 44 || b0 == 41)
  && (b1 == 46 || b1 == 33 || b1 == 63)
  && (p + 2 == w.length || isWsAt w (p + 2))

/-- Tier A of `find_last_boundary` (truncation.rs:43-53): the last regex
match whose cut position `p + 2` is `≥ min_pos` and which is not an
abbreviation; returns the cut position. -/
def tierSentence (w : BStr) (minPos : ℕ) : Option ℕ :=
  (((List.range w.length).filter
    (fun p => sentenceMatchAt w p && decide (minPos ≤ p + 2) && !is_abbreviation w p)).getLast?).map
    (fun p => p + 2)

/-- `rfind` of a literal byte pattern: start index of its last
occurrence. -/
def rfindSeq (w pat : BStr) : Option ℕ :=
  ((List.range w.length).filter (fun p => pat.isPrefixOf (w.drop p))).getLast?

/-- One tier of the form `if let Some(pos) = rfind(…) { if pos >= min_pos
{ return pos; } }`: keep the position only when it clears the
threshold. -/
def tierCheck (o : Option ℕ) (minPos : ℕ) : Option ℕ :=
  o.bind (fun p => if minPos ≤ p then some p else none)

/-- `find_last_boundary(window)` (truncation.rs:40-86): tiered fallback
sentence end > paragraph break `"\n\n"` > markdown heading `"\n#"` >
newline > white-space (no threshold but position `> 0`) > full window. -/
def find_last_boundary (w : BStr) : ℕ :=
  let minPos := w.length / 5
  match tierSentence w minPos with
  | some c => c
  | none =>
    match tierCheck (rfindSeq w [10, 10]) minPos with
    | some p => p
    | none =>
      match tierCheck (rfindSeq w [10, 35]) minPos with
      | some p => p
      | none =>
        match tierCheck (rfindSeq w [10]) minPos with
        | some p => p
        | none =>
          match lastWsPos w with
          | some p => if 0 < p then p else w.length
          | none => w.length

/-- The bytes of `"..."`. -/
def dots : BStr := [46, 46, 46]

/-- `truncate_at_sentence_boundary(text, max_bytes)`
(truncation.rs:93-106). -/
def truncate_at_sentence_boundary (text : BStr) (maxBytes : ℕ) : BStr :=
  if text.length ≤ maxBytes then text
  else
    let safeEnd := floor_char_boundary text maxBytes
    if safeEnd = 0 then []
    else
      let window := text.take safeEnd
      let pos := find_last_boundary window
      text.take pos ++ dots

/-- The window `text[start..window_end]` examined by one `chunk_text`
iteration (truncation.rs:127-128). -/
def windowAt (text : BStr) (chunkSize start : ℕ) : BStr :=
  (text.drop start).take (floor_char_boundary text (start + chunkSize) - start)

/-- One iteration of the `chunk_text` loop in the `remaining > chunk_size`
case (truncation.rs:127-146): returns the emitted chunk and the next
value of `start`. -/
def chunkStep (text : BStr) (chunkSize overlap start : ℕ) : BStr × ℕ :=
  let window := windowAt text chunkSize start
  let boundary := find_last_boundary window
  let actualEnd := start + boundary
  let chunk := (text.drop start).take boundary
  let overlapStart :=
    if overlap < actualEnd then floor_char_boundary text (actualEnd - overlap)
    else actualEnd
  let start' := if overlapStart ≤ start then actualEnd else overlapStart
  (chunk, start')

/-- The `while start < text.len()` loop of `chunk_text`
(truncation.rs:120-147), with explicit fuel: the source loop has no
built-in bound, so fuel exhaustion corresponds to non-termination of the
source loop. -/
def chunkLoop (fuel : ℕ) (text : BStr) (chunkSize overlap : ℕ) (start : ℕ) : List BStr :=
  match fuel with
  | 0 => []
  | f + 1 =>
    if start < text.length then
      if text.length - start ≤ chunkSize then [text.drop start]
      else
        let s := chunkStep text chunkSize overlap start
        s.1 :: chunkLoop f text chunkSize overlap s.2
  else []

/-- `chunk_text(text, chunk_size, overlap)` (truncation.rs:112-150).
Fuel `text.length + 1` is enough whenever the loop makes forward
progress. -/
def chunk_text (text : BStr) (chunkSize overlap : ℕ) : List BStr :=
  if text.length ≤ chunkSize then [text]
  else chunkLoop (text.length + 1) text chunkSize overlap 0

/-! ### UTF-8 validity -/

/-- Number of bytes of the UTF-8 character introduced by lead byte `b`
(`none` when `b` cannot start a character): 1 for ASCII `00..7F`, 2 for
`C2..DF`, 3 for `E0..EF`, 4 for `F0..F4`; `80..BF` (continuations),
`C0..C1` (overlong leads) and `F5..FF` are never lead bytes. -/
def utf8Len (b : ℕ) : Option ℕ :=
  if b < 128 then some 1
  else if 194 ≤ b ∧ b ≤ 223 then some 2
  else if 224 ≤ b ∧ b ≤ 239 then some 3
  else if 240 ≤ b ∧ b ≤ 244 then some 4
  else none

/-- Extra restriction RFC 3629 places on the *first* continuation byte
for the lead bytes `E0`/`ED`/`F0`/`F4` (ruling out overlong encodings
and surrogates); every other lead byte allows the full `80..BF` range. -/
def utf8First (b c1 : ℕ) : Bool :=
  if b = 224 then decide (160 ≤ c1)
  else if b = 237 then decide (c1 ≤ 159)
  else if b = 240 then decide (144 ≤ c1)
  else if b = 244 then decide (c1 ≤ 143)
  else true

/-- Are `tail` exactly the continuation bytes required after lead byte
`b`?  They must number `utf8Len b − 1`, all lie in `80..BF`, and the
first must satisfy the `utf8First` restriction.  (For a byte that cannot
lead a character, `(utf8Len b).getD 0 = 0` and the length test fails.) -/
def utf8ContOk (b : ℕ) (tail : List ℕ) : Bool :=
  (tail.length + 1 == (utf8Len b).getD 0) && tail.all (fun c => isContByte c)
    && utf8First b (tail.getD 0 0)

/-- UTF-8 validity with explicit fuel: consume one character per step
(fuel `s.length` always suffices since a character is at least one
byte). -/
def utf8ValidF : ℕ → BStr → Bool
  | _, [] => true
  | 0, _ :: _ => false
  | f + 1, b :: rest =>
    match utf8Len b with
    | none => false
    | some k => utf8ContOk b (rest.take (k - 1)) && utf8ValidF f (rest.drop (k - 1))

/-- A byte sequence is valid UTF-8 iff it parses as a sequence of
well-formed characters. -/
def utf8Valid (s : BStr) : Bool := utf8ValidF s.length s

/-! ## Chunk-concept merge (`src/ml/src/models/concepts/model.rs:239-259`) -/

/-- `best_by_name.entry(key)`: keep the existing concept unless the new
one has strictly greater importance (`if concept.importance >
e.get().importance`); insert when the key is absent. -/
def upsertConcept (m : List (String × ConceptQ)) (k : String) (c : ConceptQ) :
    List (String × ConceptQ) :=
  match m with
  | [] => [(k, c)]
  | (k0, c0) :: rest =>
    if k0 = k then (k0, if c0.importance < c.importance then c else c0) :: rest
    else (k0, c0) :: upsertConcept rest k c

/-- `merge_chunk_concepts(chunk_results)` (model.rs:239-259): fold every
chunk's concepts into a map keyed by `concept.to_lowercase()`, keeping the
entry with the highest importance.  `lower` abstracts Rust's Unicode
`to_lowercase`. -/
def merge_chunk_concepts (lower : String → String) (chunkResults : List (List ConceptQ)) :
    List ConceptQ :=
  (chunkResults.foldl
    (fun m cs => cs.foldl (fun m c => upsertConcept m (lower c.concept) c) m)
    []).map Prod.snd

/-! ## Candidate extractor (`src/ml/src/models/concepts/nlp.rs`)

The extractor drives two external crates (RAKE and TF-IDF from
`keyword_extraction`, and `rust_stemmers`); their outputs and the string
primitives they use are abstracted into an environment `NlpEnv`, over an
arbitrary phrase type `P`.  The extractor's own logic — normalisation,
map merging, filtering, stem dedup, sorting, truncation — is embedded
exactly. -/

/-- `CandidateKeyword` (nlp.rs:7-11) over an abstract phrase type. -/
structure CandidateKw (P : Type) where
  phrase : P
  score : ℚ
deriving DecidableEq, Repr

/-- The string/library primitives used by `extract_candidates`:
`to_lowercase`, the per-token stemmer of `stem_phrase`,
`split_whitespace().count()`, byte length `len()`, the `format!("{} {}")`
join of a bigram, `f32::sqrt`, `tfidf.get_score` and the stop-word test. -/
structure NlpEnv (P : Type) where
  lower : P → P
  stemPhrase : P → P
  tokenCount : P → ℕ
  byteLen : P → ℕ
  joinSp : P → P → P
  sqrtQ : ℚ → ℚ
  getScore : P → ℚ
  isStop : P → Bool

/-- `iter().map(score).fold(0.0, f32::max)`. -/
def maxScore (l : List ℚ) : ℚ := l.foldl max 0

/-- RAKE-phase map update (nlp.rs:115-132):
`entry(key).and_modify(|s| *s = s.max(v)).or_insert(v)`. -/
def upsertMax (P : Type) [DecidableEq P] (m : List (P × ℚ)) (k : P) (v : ℚ) :
    List (P × ℚ) :=
  match m with
  | [] => [(k, v)]
  | (k0, s) :: rest =>
    if k0 = k then (k0, max s v) :: rest else (k0, s) :: upsertMax P rest k v

/-- TF-IDF-phase map update (nlp.rs:148-166):
`entry(key).and_modify(|s| *s = (*s + v * 0.5).min(1.0)).or_insert(v * 0.8)`. -/
def upsertBoost (P : Type) [DecidableEq P] (m : List (P × ℚ)) (k : P) (v : ℚ) :
    List (P × ℚ) :=
  match m with
  | [] => [(k, v * (4/5))]
  | (k0, s) :: rest =>
    if k0 = k then (k0, min (s + v * (1/2)) 1) :: rest
    else (k0, s) :: upsertBoost P rest k v

/-- Stem-dedup map update (nlp.rs:180-193): group values are
`(best_phrase, best_score, count)`; on collision bump the count and keep
the better-scoring surface form. -/
def upsertStem (P : Type) [DecidableEq P] (m : List (P × (P × ℚ × ℕ)))
    (k : P) (ph : P) (sc : ℚ) : List (P × (P × ℚ × ℕ)) :=
  match m with
  | [] => [(k, (ph, sc, 1))]
  | (k0, v) :: rest =>
    if k0 = k then
      (k0, if v.2.1 < sc then (ph, sc, v.2.2 + 1) else (v.1, v.2.1, v.2.2 + 1)) :: rest
    else (k0, v) :: upsertStem P rest k ph sc

/-- `extract_tfidf_bigrams` (nlp.rs:32-79): slide a 2-window over the
lowercased non-stop content words, keep bigrams occurring at least
twice, and score each `√(tfidf(w₁)·tfidf(w₂)) / tfidf_max`.  `words` is
`text.split_whitespace()`.  The source builds the bigram key with
`format!("{} {}", …)` and later re-splits it to recover the two words;
here the component pair is kept alongside the joined key. -/
def extract_tfidf_bigrams (P : Type) [DecidableEq P] (env : NlpEnv P)
    (words : List P) (tfidfMax : ℚ) : List (P × ℚ) :=
  if tfidfMax ≤ 0 then []
  else
    let content := words.filter
      (fun w => decide (2 ≤ env.byteLen (env.lower w)) && !env.isStop (env.lower w))
    let pairs := content.zip content.tail
    let keyed := pairs.map
      (fun ab => (env.joinSp (env.lower ab.1) (env.lower ab.2),
                  (env.lower ab.1, env.lower ab.2)))
    let keys := (keyed.map Prod.fst).dedup
    let frequent := keys.filter (fun k => 2 ≤ (keyed.map Prod.fst).count k)
    frequent.filterMap (fun k =>
      (keyed.find? (fun kv => kv.1 = k)).bind (fun kv =>
        let s1 := env.getScore kv.2.1
        let s2 := env.getScore kv.2.2
        if 0 < s1 ∧ 0 < s2 then some (k, env.sqrtQ (s1 * s2) / tfidfMax)
        else none))

/-- The descending-score order used by
`candidates.sort_by(|a, b| b.score.partial_cmp(&a.score))`. -/
def candGE (P : Type) (a b : CandidateKw P) : Prop := b.score ≤ a.score

instance (P : Type) : DecidableRel (candGE P) :=
  fun a b => inferInstanceAs (Decidable (b.score ≤ a.score))

instance (P : Type) : IsTotal (CandidateKw P) (candGE P) :=
  ⟨fun a b => le_total b.score a.score⟩

instance (P : Type) : IsTrans (CandidateKw P) (candGE P) :=
  ⟨fun _ _ _ h1 h2 => le_trans h2 h1⟩

/-- `extract_candidates(text, max_candidates)` (nlp.rs:90-216).  The
external library results are parameters: `rakeResults` / `rakeKeywords`
are RAKE's ranked phrases and keywords with scores, `tfidfResults` the
ranked TF-IDF word scores, `env.getScore` the TF-IDF score lookup,
`textLen` the byte length of the input text and `words` its
whitespace-split word list. -/
def extract_candidates (P : Type) [DecidableEq P] (env : NlpEnv P)
    (textLen : ℕ) (words : List P)
    (rakeResults rakeKeywords tfidfResults : List (P × ℚ))
    (maxCandidates : ℕ) : List (CandidateKw P) :=
  if textLen < 50 then []
  else
    let rakeMax := maxScore ((rakeResults ++ rakeKeywords).map Prod.snd)
    let scored1 :=
      if 0 < rakeMax then
        (rakeResults ++ rakeKeywords).foldl
          (fun m pr => upsertMax P m (env.lower pr.1) (pr.2 / rakeMax)) []
      else []
    let tfidfMax := maxScore (tfidfResults.map Prod.snd)
    let scored2 :=
      if 0 < tfidfMax then
        let s := tfidfResults.foldl
          (fun m pr => upsertBoost P m (env.lower pr.1) (pr.2 / tfidfMax)) scored1
        (extract_tfidf_bigrams P env words tfidfMax).foldl
          (fun m pr => upsertBoost P m pr.1 pr.2) s
      else scored1
    let filtered := scored2.filter
      (fun kv => decide (env.tokenCount kv.1 ≤ 3) && decide (2 ≤ env.byteLen kv.1))
    let stemGroups := filtered.foldl
      (fun m kv => upsertStem P m (env.stemPhrase kv.1) kv.1 kv.2) []
    let candidates := stemGroups.map (fun kv =>
      { phrase := kv.2.1
        score := if 1 < kv.2.2.2 then min (kv.2.2.1 + 1/10) 1 else kv.2.2.1
        : CandidateKw P })
    (candidates.insertionSort (candGE P)).take maxCandidates

/-- A concrete environment over `ℕ`-coded phrases, for evaluating the
extractor on concrete inputs. -/
def envW : NlpEnv ℕ where
  lower := id
  stemPhrase := id
  tokenCount := fun _ => 1
  byteLen := fun _ => 2
  joinSp := fun a b => a + b
  sqrtQ := fun _ => 0
  getScore := fun _ => 0
  isStop := fun _ => false


/-! # Theorems -/

/-! ## C1 — the merger partitions the input indices -/

theorem pushEntry_snd_flatten_perm (acc : List (ℕ × List ℕ)) (k i : ℕ) :
    ((pushEntry acc k i).map Prod.snd).flatten.Perm
      (((acc.map Prod.snd).flatten) ++ [i]) := by
  induction acc with
  | nil => simp [pushEntry]
  | cons hd tl ih =>
    obtain ⟨k0, v⟩ := hd
    by_cases h : k0 = k
    · simp only [pushEntry, if_pos h, List.map_cons, List.flatten_cons]
      rw [List.append_assoc, List.append_assoc]
      exact List.Perm.append_left v List.perm_append_comm
    · simp only [pushEntry, if_neg h, List.map_cons, List.flatten_cons]
      rw [List.append_assoc]
      exact List.Perm.append_left v ih

theorem foldl_pushEntry_flatten_perm (f : ℕ → ℕ) (l : List ℕ) (acc : List (ℕ × List ℕ)) :
    (((l.foldl (fun a i => pushEntry a (f i) i) acc).map Prod.snd).flatten).Perm
      (((acc.map Prod.snd).flatten) ++ l) := by
  induction l generalizing acc with
  | nil => simp
  | cons x xs ih =>
    simp only [List.foldl_cons]
    refine (ih (pushEntry acc (f x) x)).trans ?_
    have h := List.Perm.append_right xs (pushEntry_snd_flatten_perm acc (f x) x)
    rw [List.append_assoc] at h
    simpa using h

theorem collectGroups_flatten_perm (parent : List ℕ) (n : ℕ) :
    (((collectGroups parent n).map Prod.snd).flatten).Perm (List.range n) := by
  simpa [collectGroups] using
    foldl_pushEntry_flatten_perm (findRoot n parent) (List.range n) []

theorem map_getD_self {α : Type} (l : List α) (d : α) :
    (List.range l.length).map (fun i => l.getD i d) = l := by
  induction l with
  | nil => simp
  | cons hd tl ih =>
    rw [List.length_cons, List.range_succ_eq_map, List.map_cons, List.map_map]
    simp only [List.getD_cons_zero, Function.comp_def, List.getD_cons_succ]
    rw [ih]

/-- C1: for every non-empty concept list and equal-length list of
non-zero-dimension embeddings, when the merger succeeds its groups
partition the inputs: the group sizes sum to the number of concepts, and
the concatenation of all member lists is a permutation of the input
concept texts (each input occurrence appears in exactly one group).  The
groups are those of the union-find closure built by
`merge_similar_concepts` from the pairs whose cosine similarity exceeds
the threshold. -/
theorem merger_partitions_input (thr : ℚ) (cs : List ConceptQ) (es : List EmbQ)
    (gs : List MergedGroup)
    (h1 : cs ≠ []) (h2 : cs.length = es.length) (h3 : ∀ e ∈ es, e ≠ [])
    (hok : merge_similar_concepts thr cs es = .ok gs) :
    (gs.map (fun g => g.members.length)).sum = cs.length ∧
      ((gs.map (fun g => g.members)).flatten).Perm (cs.map (fun c => c.concept)) := by
  rw [merge_similar_concepts] at hok
  split_ifs at hok with hempty hlen hzero hpanic
  simp only [Except.ok.injEq] at hok
  subst hok
  set groups := collectGroups (buildParent thr es) cs.length with hgroups
  have hperm : ((groups.map Prod.snd).flatten).Perm (List.range cs.length) :=
    collectGroups_flatten_perm (buildParent thr es) cs.length
  constructor
  · have hl := hperm.length_eq
    rw [List.length_flatten, List.map_map, List.length_range] at hl
    simpa [List.map_map, Function.comp_def] using hl
  · have hflat : (groups.map (fun g =>
        g.2.map (fun i => (cs.getD i default).concept))).flatten
        = ((groups.map Prod.snd).flatten).map (fun i => (cs.getD i default).concept) := by
      rw [List.map_flatten, List.map_map]; rfl
    simp only [List.map_map, Function.comp_def]
    rw [hflat]
    refine (hperm.map (fun i => (cs.getD i default).concept)).trans ?_
    rw [show (fun i => (cs.getD i default).concept) =
          (fun c => ConceptQ.concept c) ∘ (fun i => cs.getD i default) from rfl,
        ← List.map_map, map_getD_self]

/-- Witness for C1 at a concrete input: two concepts with identical
one-dimensional embeddings merge into a single group carrying both
texts. -/
theorem merger_partitions_input_witness :
    ((([({ members := ["a", "b"], avg := [1], importances := [1, 0], root := 0 } :
        MergedGroup)]).map (fun g => g.members)).flatten).Perm
      (([({ concept := "a", importance := 1 } : ConceptQ),
         { concept := "b", importance := 0 }]).map (fun c => c.concept)) :=
  (merger_partitions_input (7/10)
    [{ concept := "a", importance := 1 }, { concept := "b", importance := 0 }]
    [[1], [1]]
    [{ members := ["a", "b"], avg := [1], importances := [1, 0], root := 0 }]
    (by decide) (by decide) (by decide)
    (by norm_num [merge_similar_concepts, simPanics, pairList, buildParent, cosine_gt,
      dotP, sumSq, collectGroups, findRoot, unionRoots, pushEntry, avgEmb,
      List.range_succ])).2

/-! ## C2 — compact contiguous group ids -/

theorem pushEntry_fst (acc : List (ℕ × List ℕ)) (k i : ℕ) :
    (pushEntry acc k i).map Prod.fst
      = if k ∈ acc.map Prod.fst then acc.map Prod.fst
        else acc.map Prod.fst ++ [k] := by
  induction acc with
  | nil => simp [pushEntry]
  | cons hd tl ih =>
    obtain ⟨k0, v⟩ := hd
    by_cases h : k0 = k
    · simp [pushEntry, h]
    · simp only [pushEntry, if_neg h, List.map_cons, ih]
      by_cases hm : k ∈ tl.map Prod.fst
      · simp [hm, Ne.symm h]
      · simp [hm, Ne.symm h]

theorem foldl_pushEntry_fst_nodup (f : ℕ → ℕ) (l : List ℕ) (acc : List (ℕ × List ℕ))
    (h : (acc.map Prod.fst).Nodup) :
    ((l.foldl (fun a i => pushEntry a (f i) i) acc).map Prod.fst).Nodup := by
  induction l generalizing acc with
  | nil => exact h
  | cons x xs ih =>
    simp only [List.foldl_cons]
    refine ih (pushEntry acc (f x) x) ?_
    rw [pushEntry_fst]
    by_cases hm : f x ∈ acc.map Prod.fst
    · simpa [hm] using h
    · simp [List.nodup_append, h, hm]

theorem collectGroups_fst_nodup (parent : List ℕ) (n : ℕ) :
    ((collectGroups parent n).map Prod.fst).Nodup :=
  foldl_pushEntry_fst_nodup (findRoot n parent) (List.range n) [] (by simp)

theorem map_indexOf_self {α : Type} [DecidableEq α] (l : List α) (h : l.Nodup) :
    l.map (fun a => l.indexOf a) = List.range l.length := by
  induction l with
  | nil => simp
  | cons hd tl ih =>
    rw [List.map_cons, List.indexOf_cons_self, List.length_cons, List.range_succ_eq_map]
    have h1 : hd ∉ tl := (List.nodup_cons.mp h).1
    have h2 : tl.Nodup := (List.nodup_cons.mp h).2
    rw [← ih h2, List.map_map]
    exact congrArg _
      (List.map_congr_left (fun x hx => List.indexOf_cons_ne tl (fun e => h1 (e ▸ hx))))

theorem merge_roots_nodup (thr : ℚ) (cs : List ConceptQ) (es : List EmbQ)
    (gs : List MergedGroup) (hok : merge_similar_concepts thr cs es = .ok gs) :
    (gs.map (fun g => g.root)).Nodup := by
  rw [merge_similar_concepts] at hok
  split_ifs at hok
  simp only [Except.ok.injEq] at hok
  subst hok
  rw [List.map_map]
  exact collectGroups_fst_nodup (buildParent thr es) cs.length

theorem buildCGAux_group_ids (gs0 : List MergedGroup) (positions : List EmbQ)
    (M : ℕ → ℕ → ℚ) (l : List MergedGroup) (k : ℕ)
    (hk : k + l.length ≤ positions.length) :
    (buildCGAux gs0 positions M k l).map (fun g => g.group_id)
      = l.map (fun g => (sortedRoots gs0).indexOf g.root) := by
  induction l generalizing k with
  | nil => simp [buildCGAux]
  | cons g rest ih =>
    rw [buildCGAux, if_pos (by simp at hk; omega)]
    simp only [List.singleton_append, List.map_cons]
    rw [ih (k + 1) (by simp at hk ⊢; omega)]

/-- C2: in every successful run, the multiset of `group_id`s of the
assembled `ConceptGroup`s is exactly `{0, …, k−1}` where `k` is the
number of merged groups — each `group_id` is the index of the group's
union-find root in the ascending sorted list of the distinct roots. -/
theorem group_ids_compact (thr : ℚ) (cs : List ConceptQ) (es : List EmbQ)
    (gs : List MergedGroup) (positions : List EmbQ) (M : ℕ → ℕ → ℚ)
    (hok : merge_similar_concepts thr cs es = .ok gs)
    (hpos : positions.length = gs.length) :
    ((build_concept_groups gs positions M).map (fun g => g.group_id)).Perm
      (List.range gs.length) := by
  have hroots : (gs.map (fun g => g.root)).Nodup := merge_roots_nodup thr cs es gs hok
  have hsort : (sortedRoots gs).Perm (gs.map (fun g => g.root)) := by
    rw [sortedRoots,
      List.dedup_eq_self.mpr (((gs.map (fun g => g.root)).perm_insertionSort
        (fun a b => a ≤ b)).nodup_iff.mpr hroots)]
    exact (gs.map (fun g => g.root)).perm_insertionSort (fun a b => a ≤ b)
  have hnodup : (sortedRoots gs).Nodup := hsort.nodup_iff.mpr hroots
  rw [build_concept_groups, buildCGAux_group_ids gs positions M gs 0 (by omega)]
  have hmm : gs.map (fun g => (sortedRoots gs).indexOf g.root)
      = (gs.map (fun g => g.root)).map (fun r => (sortedRoots gs).indexOf r) := by
    rw [List.map_map]; rfl
  rw [hmm]
  refine (List.Perm.map (fun r => (sortedRoots gs).indexOf r) hsort.symm).trans ?_
  rw [map_indexOf_self (sortedRoots gs) hnodup, hsort.length_eq, List.length_map]

/-- Witness for C2 at a concrete input: two dissimilar concepts produce
two groups with ids a permutation of `{0, 1}`. -/
theorem group_ids_compact_witness :
    ((build_concept_groups
        [{ members := ["a"], avg := [1, 0], importances := [1], root := 0 },
         { members := ["b"], avg := [0, 1], importances := [0], root := 1 }]
        [[0, 0, 0], [1, 1, 1]] (fun _ _ => 0)).map (fun g => g.group_id)).Perm
      (List.range 2) := by
  exact group_ids_compact (7/10)
    [{ concept := "a", importance := 1 }, { concept := "b", importance := 0 }]
    [[1, 0], [0, 1]]
    [{ members := ["a"], avg := [1, 0], importances := [1], root := 0 },
     { members := ["b"], avg := [0, 1], importances := [0], root := 1 }]
    [[0, 0, 0], [1, 1, 1]] (fun _ _ => 0)
    (by norm_num [merge_similar_concepts, simPanics, pairList, buildParent, cosine_gt,
      dotP, sumSq, collectGroups, findRoot, unionRoots, pushEntry, avgEmb,
      List.range_succ, List.cons_ne_nil])
    (by rfl)

/-! ## C3 — connections are symmetric, irreflexive, and exactly the
positive-similarity neighbours -/

theorem pair_mem_pairList (n i j : ℕ) : (i, j) ∈ pairList n ↔ i < j ∧ j < n := by
  simp only [pairList, List.mem_flatMap, List.mem_range, List.mem_map]
  constructor
  · rintro ⟨a, ha, b, hb, he⟩
    injection he with e1 e2
    subst e1; subst e2
    rw [List.mem_range'] at hb
    obtain ⟨k, hk, rfl⟩ := hb
    omega
  · rintro ⟨h1, h2⟩
    refine ⟨i, by omega, j, ?_, rfl⟩
    rw [List.mem_range']
    exact ⟨j - (i + 1), by omega, by omega⟩

theorem simmat_foldl_closed (sim : ℕ → ℕ → ℚ) (L : List (ℕ × ℕ)) (M0 : ℕ → ℕ → ℚ)
    (a b : ℕ) (hL : ∀ p ∈ L, p.1 < p.2) :
    (L.foldl
      (fun M ij =>
        if 0 < sim ij.1 ij.2 then
          matUpd (matUpd M ij.1 ij.2 (sim ij.1 ij.2)) ij.2 ij.1 (sim ij.1 ij.2)
        else M)
      M0) a b
      = if (min a b, max a b) ∈ L ∧ a ≠ b ∧ 0 < sim (min a b) (max a b) then
          sim (min a b) (max a b)
        else M0 a b := by
  induction L generalizing M0 with
  | nil => simp
  | cons p rest ih =>
    obtain ⟨i, j⟩ := p
    have hij : i < j := hL (i, j) (List.mem_cons_self _ _)
    have hL' : ∀ p ∈ rest, p.1 < p.2 := fun q hq => hL q (List.mem_cons_of_mem _ hq)
    rw [List.foldl_cons, ih _ hL']
    dsimp only
    by_cases hc : a ≠ b ∧ 0 < sim (min a b) (max a b)
    · by_cases hmem : (min a b, max a b) ∈ rest
      · have hc1 : (min a b, max a b) ∈ rest ∧ a ≠ b ∧ 0 < sim (min a b) (max a b) :=
          ⟨hmem, hc⟩
        have hc2 : (min a b, max a b) ∈ (i, j) :: rest ∧ a ≠ b ∧
            0 < sim (min a b) (max a b) := ⟨List.mem_cons_of_mem _ hmem, hc⟩
        rw [if_pos hc1, if_pos hc2]
      · have hn1 : ¬((min a b, max a b) ∈ rest ∧ a ≠ b ∧
            0 < sim (min a b) (max a b)) := fun h => hmem h.1
        rw [if_neg hn1]
        by_cases hpair : (min a b, max a b) = (i, j)
        · have hc2 : (min a b, max a b) ∈ (i, j) :: rest ∧ a ≠ b ∧
            0 < sim (min a b) (max a b) := ⟨List.mem_cons.mpr (Or.inl hpair), hc⟩
          rw [if_pos hc2]
          have hm : min a b = i := congrArg Prod.fst hpair
          have hx : max a b = j := congrArg Prod.snd hpair
          have hs : 0 < sim i j := by rw [← hm, ← hx]; exact hc.2
          rw [if_pos hs]
          simp only [matUpd]
          rcases Nat.lt_or_ge a b with hab | hab
          · have ha : a = i := by omega
            have hb : b = j := by omega
            rw [if_neg (by omega), if_pos ⟨ha, hb⟩, ← hm, ← hx]
          · have ha : a = j := by omega
            have hb : b = i := by omega
            rw [if_pos ⟨ha, hb⟩, ← hm, ← hx]
        · have hn2 : ¬((min a b, max a b) ∈ (i, j) :: rest ∧ a ≠ b ∧
            0 < sim (min a b) (max a b)) :=
            fun h => (List.mem_cons.mp h.1).elim hpair hmem
          rw [if_neg hn2]
          by_cases hs : 0 < sim i j
          · rw [if_pos hs]
            simp only [matUpd]
            have h1 : ¬(a = j ∧ b = i) := by
              rintro ⟨e1, e2⟩
              refine hpair ?_
              have hm : min a b = i := by omega
              have hx : max a b = j := by omega
              rw [hm, hx]
            have h2 : ¬(a = i ∧ b = j) := by
              rintro ⟨e1, e2⟩
              refine hpair ?_
              have hm : min a b = i := by omega
              have hx : max a b = j := by omega
              rw [hm, hx]
            rw [if_neg h1, if_neg h2]
          · rw [if_neg hs]
    · have hn1 : ¬((min a b, max a b) ∈ rest ∧ a ≠ b ∧
          0 < sim (min a b) (max a b)) := fun h => hc ⟨h.2.1, h.2.2⟩
      have hn2 : ¬((min a b, max a b) ∈ (i, j) :: rest ∧ a ≠ b ∧
          0 < sim (min a b) (max a b)) := fun h => hc ⟨h.2.1, h.2.2⟩
      rw [if_neg hn1, if_neg hn2]
      by_cases hs : 0 < sim i j
      · rw [if_pos hs]
        simp only [matUpd]
        have h1 : ¬(a = j ∧ b = i) := by
          rintro ⟨e1, e2⟩
          refine hc ⟨by omega, ?_⟩
          have hm : min a b = i := by omega
          have hx : max a b = j := by omega
          rw [hm, hx]; exact hs
        have h2 : ¬(a = i ∧ b = j) := by
          rintro ⟨e1, e2⟩
          refine hc ⟨by omega, ?_⟩
          have hm : min a b = i := by omega
          have hx : max a b = j := by omega
          rw [hm, hx]; exact hs
        rw [if_neg h1, if_neg h2]
      · rw [if_neg hs]

theorem build_simmat_closed (n : ℕ) (sim : ℕ → ℕ → ℚ)
    (hsym : ∀ i j, sim i j = sim j i) (a b : ℕ) (ha : a < n) (hb : b < n) :
    build_similarity_matrix n sim a b = if a ≠ b ∧ 0 < sim a b then sim a b else 0 := by
  rw [build_similarity_matrix,
    simmat_foldl_closed sim (pairList n) (fun _ _ => 0) a b
      (fun p hp => ((pair_mem_pairList n p.1 p.2).mp hp).1)]
  have hsab : sim (min a b) (max a b) = sim a b := by
    rcases Nat.le_total a b with hab | hab
    · rw [Nat.min_eq_left hab, Nat.max_eq_right hab]
    · rw [Nat.min_eq_right hab, Nat.max_eq_left hab, hsym]
  by_cases hne : a = b
  · subst hne; simp
  · have hmem : (min a b, max a b) ∈ pairList n := by
      rw [pair_mem_pairList]
      omega
    by_cases hpos : 0 < sim a b
    · rw [if_pos ⟨hmem, hne, by rw [hsab]; exact hpos⟩, if_pos ⟨hne, hpos⟩, hsab]
    · rw [if_neg (fun h => hpos (by rw [← hsab]; exact h.2.2)), if_neg (fun h => hpos h.2)]

theorem mem_find_connections (M : ℕ → ℕ → ℚ) (n i j : ℕ) :
    j ∈ find_connections M n i ↔ j < n ∧ j ≠ i ∧ 0 < M i j := by
  simp [find_connections, List.mem_filter, List.mem_range, and_assoc]

/-- C3: in the assembled output the connection relation is symmetric and
irreflexive, and row `i` lists exactly the `j ≠ i` whose (continuous)
cosine similarity with `i` is strictly positive.  `sim` abstracts the
cosine similarity of the merged groups' averaged embeddings, which is a
symmetric function. -/
theorem connections_symm_irrefl_exact (n : ℕ) (sim : ℕ → ℕ → ℚ)
    (hsym : ∀ i j, sim i j = sim j i) (i j : ℕ) (hi : i < n) (hj : j < n) :
    (j ∈ find_connections (build_similarity_matrix n sim) n i
        ↔ i ∈ find_connections (build_similarity_matrix n sim) n j) ∧
      i ∉ find_connections (build_similarity_matrix n sim) n i ∧
      (j ∈ find_connections (build_similarity_matrix n sim) n i ↔ j ≠ i ∧ 0 < sim i j) := by
  have hchar : ∀ a b : ℕ, a < n → b < n →
      (b ∈ find_connections (build_similarity_matrix n sim) n a ↔ b ≠ a ∧ 0 < sim a b) := by
    intro a b ha hb
    rw [mem_find_connections, build_simmat_closed n sim hsym a b ha hb]
    constructor
    · rintro ⟨-, hne, hpos⟩
      refine ⟨hne, ?_⟩
      by_cases h : a ≠ b ∧ 0 < sim a b
      · exact h.2
      · rw [if_neg h] at hpos; exact absurd hpos (by norm_num)
    · rintro ⟨hne, hpos⟩
      exact ⟨hb, hne, by rw [if_pos ⟨fun e => hne e.symm, hpos⟩]; exact hpos⟩
  refine ⟨?_, ?_, hchar i j hi hj⟩
  · rw [hchar i j hi hj, hchar j i hj hi]
    constructor
    · rintro ⟨hne, hpos⟩; exact ⟨fun e => hne e.symm, by rw [hsym j i]; exact hpos⟩
    · rintro ⟨hne, hpos⟩; exact ⟨fun e => hne e.symm, by rw [hsym i j]; exact hpos⟩
  · rw [mem_find_connections]
    rintro ⟨-, hne, -⟩
    exact hne rfl

/-- Witness for C3 at `n = 2` with the constant similarity 1. -/
theorem connections_symm_irrefl_exact_witness :
    ((1 : ℕ) ∈ find_connections (build_similarity_matrix 2 (fun _ _ => 1)) 2 0
        ↔ (0 : ℕ) ∈ find_connections (build_similarity_matrix 2 (fun _ _ => 1)) 2 1) ∧
      (0 : ℕ) ∉ find_connections (build_similarity_matrix 2 (fun _ _ => 1)) 2 0 ∧
      ((1 : ℕ) ∈ find_connections (build_similarity_matrix 2 (fun _ _ => 1)) 2 0
        ↔ (1 : ℕ) ≠ 0 ∧ (0 : ℚ) < 1) :=
  connections_symm_irrefl_exact 2 (fun _ _ => 1) (fun _ _ => rfl) 0 1
    (by omega) (by omega)

/-! ## C4 — zero-dimension embeddings abort the merger; mismatched
dimensions do not (the guard only logs a warning) -/

/-- Counterexample to C4 as stated: a request whose two embeddings have
*different* dimensions (1 and 2) passes every guard of
`merge_similar_concepts` and the merger returns `Ok` — no hard error.
(The second vector is the zero vector, so `cosine_similarity` returns
`0.0` from its norm check and not even the ndarray `dot` panic can
occur.)  Mismatched dimensions therefore cause only the logged warning
of dimensionality.rs:129-137. -/
theorem merger_mismatch_no_error_counterexample :
    (merge_similar_concepts (7/10)
        [{ concept := "a", importance := 1/2 }, { concept := "b", importance := 1/2 }]
        [[1], [0, 0]]).isOk = true ∧
      ([(1 : ℚ)].length ≠ [(0 : ℚ), 0].length) := by
  constructor
  · norm_num [merge_similar_concepts, simPanics, pairList, buildParent, cosine_gt,
      dotP, sumSq, collectGroups, findRoot, unionRoots, pushEntry, avgEmb,
      List.range_succ, List.cons_ne_nil, Except.isOk, Except.toBool]
  · simp

/-- C4 (amended): a zero-dimension embedding reaching the merger always
makes it return an error, but mismatched dimensions within one request
do *not* cause a guard error — whenever no pair of unequal-length
embeddings with nonzero norms exists (which would hit the ndarray `dot`
panic), the merger succeeds even with non-uniform dimensions, emitting
only a logged warning. -/
theorem merger_zero_dim_errors (thr : ℚ) (cs : List ConceptQ) (es : List EmbQ) :
    ((∃ e ∈ es, e.length = 0) → (merge_similar_concepts thr cs es).isOk = false) ∧
      (cs ≠ [] → cs.length = es.length → (∀ e ∈ es, e ≠ []) → simPanics es = false →
        (merge_similar_concepts thr cs es).isOk = true) := by
  constructor
  · rintro ⟨e, he, hlen⟩
    rw [merge_similar_concepts]
    split_ifs with h1 h2 h3 h4
    · rfl
    · rfl
    · rfl
    · rfl
    · exfalso
      apply h3
      simp only [List.any_eq_true, decide_eq_true_eq]
      exact ⟨e, he, hlen⟩
  · intro hne hlen hdim hpanic
    rw [merge_similar_concepts]
    split_ifs with h1 h2 h3 h4
    · exfalso
      rcases h1 with h | h
      · exact hne (List.isEmpty_iff.mp h)
      · rw [List.isEmpty_iff] at h
        subst h
        simp only [List.length_nil] at hlen
        exact hne (List.length_eq_zero.mp hlen)
    · exact absurd hlen h2
    · exfalso
      rw [List.any_eq_true] at h3
      obtain ⟨e, he, hl⟩ := h3
      rw [decide_eq_true_eq, List.length_eq_zero] at hl
      exact hdim e he hl
    · exact absurd h4 (by simp [hpanic])
    · rfl

/-- Witness for C4: a zero-dimension embedding yields an error, while
the mismatched-dimension input of the counterexample succeeds. -/
theorem merger_zero_dim_errors_witness :
    (merge_similar_concepts (7/10) [{ concept := "a", importance := 1/2 }]
        [[]]).isOk = false ∧
      (merge_similar_concepts (7/10)
        [{ concept := "a", importance := 1/2 }, { concept := "b", importance := 1/2 }]
        [[1], [0, 0]]).isOk = true :=
  ⟨(merger_zero_dim_errors (7/10) [{ concept := "a", importance := 1/2 }] [[]]).1
      ⟨[], by simp, rfl⟩,
   (merger_zero_dim_errors (7/10)
      [{ concept := "a", importance := 1/2 }, { concept := "b", importance := 1/2 }]
      [[1], [0, 0]]).2
      (by simp) (by simp) (by simp [List.cons_ne_nil])
      (by norm_num [simPanics, pairList, dotP, sumSq, List.range_succ])⟩

/-! ## Boundary-splitter lemmas (towards C5, C6, C7, C10) -/

theorem floorCB_le (s : BStr) (i : ℕ) : floorCB s i ≤ i := by
  induction i with
  | zero => simp [floorCB]
  | succ i ih =>
    rw [floorCB]
    split
    · exact Nat.le_refl _
    · exact Nat.le_trans ih (Nat.le_succ i)

theorem floor_char_boundary_le (s : BStr) (idx : ℕ) :
    floor_char_boundary s idx ≤ min idx s.length :=
  floorCB_le s (min idx s.length)

theorem floorCB_boundary (s : BStr) (i : ℕ) :
    is_char_boundary s (floorCB s i) = true := by
  induction i with
  | zero => simp [floorCB, is_char_boundary]
  | succ i ih =>
    rw [floorCB]
    split
    · assumption
    · exact ih

theorem is_char_boundary_cases (s : BStr) (i : ℕ)
    (h : is_char_boundary s i = true) :
    i = 0 ∨ i = s.length ∨ (i < s.length ∧ isContByte (s.getD i 0) = false) := by
  rw [is_char_boundary] at h
  split_ifs at h with h0 hlt
  · exact Or.inl h0
  · exact Or.inr (Or.inr ⟨hlt, by simpa using h⟩)
  · exact Or.inr (Or.inl (by simpa using h))

theorem floorCB_pos_of_boundary (s : BStr) (i : ℕ) (hi : 0 < i)
    (hb : is_char_boundary s i = true) : floorCB s i = i := by
  cases i with
  | zero => omega
  | succ i => rw [floorCB, if_pos hb]

theorem isContByte_eq_false_iff (b : ℕ) :
    isContByte b = false ↔ b < 128 ∨ 192 ≤ b := by
  rw [isContByte]
  by_cases h1 : 128 ≤ b <;> by_cases h2 : b < 192 <;> simp [h1, h2] <;> omega

/-- A white-space character's first byte is one of the ASCII white-space
bytes or `C2`/`E1`/`E2`/`E3`; it is in range and never a continuation
byte. -/
theorem isWsAt_head (s : BStr) (p : ℕ) (h : isWsAt s p = true) :
    p < s.length ∧ isContByte (s.getD p 0) = false := by
  have hlt : p < s.length := by
    by_contra hge
    rw [isWsAt] at h
    rw [List.getD_eq_default _ _ (by omega)] at h
    simp at h
  refine ⟨hlt, ?_⟩
  rw [isWsAt] at h
  rw [show s.getD p 256 = s.getD p 0 from by
    rw [List.getD_eq_getElem?_getD, List.getD_eq_getElem?_getD,
      List.getElem?_eq_getElem hlt]; rfl] at h
  simp only [Bool.or_eq_true, Bool.and_eq_true, beq_iff_eq, decide_eq_true_eq] at h
  rw [isContByte_eq_false_iff]
  omega

theorem getD_irrel (s : BStr) (p : ℕ) (h : p < s.length) (d1 d2 : ℕ) :
    s.getD p d1 = s.getD p d2 := by
  rw [List.getD_eq_getElem?_getD, List.getD_eq_getElem?_getD, List.getElem?_eq_getElem h]
  rfl

theorem sentenceMatchAt_bound (w : BStr) (p : ℕ) (h : sentenceMatchAt w p = true) :
    p + 2 ≤ w.length ∧ (p + 2 = w.length ∨ isWsAt w (p + 2) = true) := by
  rw [sentenceMatchAt] at h
  simp only [Bool.and_eq_true, Bool.or_eq_true, beq_iff_eq, decide_eq_true_eq] at h
  have h1 := h.1.2
  have h2 := h.2
  have hp1 : p + 1 < w.length := by
    by_contra hge
    rw [List.getD_eq_default _ _ (by omega)] at h1
    omega
  exact ⟨by omega, h2⟩

theorem tierSentence_bound (w : BStr) (m c : ℕ) (h : tierSentence w m = some c) :
    c ≤ w.length ∧ (c = w.length ∨ isWsAt w c = true) := by
  rw [tierSentence] at h
  rw [Option.map_eq_some'] at h
  obtain ⟨p, hp, hc⟩ := h
  have hmem := List.mem_of_getLast?_eq_some hp
  rw [List.mem_filter] at hmem
  have hmatch : sentenceMatchAt w p = true := by
    have := hmem.2
    simp only [Bool.and_eq_true] at this
    exact this.1.1
  obtain ⟨hle, hcase⟩ := sentenceMatchAt_bound w p hmatch
  subst hc
  exact ⟨hle, hcase⟩

theorem tierCheck_some (o : Option ℕ) (m p : ℕ) (h : tierCheck o m = some p) :
    o = some p := by
  rw [tierCheck] at h
  cases o with
  | none => simp at h
  | some q =>
    rw [Option.some_bind] at h
    split_ifs at h with hm
    exact h

theorem rfindSeq_byte (w : BStr) (b : ℕ) (t : BStr) (p : ℕ)
    (h : rfindSeq w (b :: t) = some p) : p < w.length ∧ w.getD p 0 = b := by
  rw [rfindSeq] at h
  have hmem := List.mem_of_getLast?_eq_some h
  rw [List.mem_filter] at hmem
  have hlt : p < w.length := by simpa using hmem.1
  refine ⟨hlt, ?_⟩
  have hpre : (b :: t) <+: w.drop p := by
    rw [← List.isPrefixOf_iff_prefix]
    exact hmem.2
  obtain ⟨t2, ht2⟩ := hpre
  have : (w.drop p).getD 0 0 = b := by rw [← ht2]; rfl
  rw [← this, List.getD_eq_getElem?_getD, List.getD_eq_getElem?_getD,
    List.getElem?_drop, Nat.add_zero]

theorem lastWsPos_ws (w : BStr) (p : ℕ) (h : lastWsPos w = some p) :
    isWsAt w p = true := by
  rw [lastWsPos] at h
  have hmem := List.mem_of_getLast?_eq_some h
  rw [List.mem_filter] at hmem
  exact hmem.2

/-- `find_last_boundary` returns either the window length or a position
strictly inside the window holding a non-continuation byte; in
particular it never exceeds the window length (tier A cuts after two
ASCII bytes at the end or before a white-space character; tiers B–D cut
at a `\n` byte; tier E cuts at a white-space character; tier F is the
window length). -/
theorem find_last_boundary_spec (w : BStr) :
    find_last_boundary w = w.length ∨
      (find_last_boundary w < w.length ∧
        isContByte (w.getD (find_last_boundary w) 0) = false) := by
  rw [find_last_boundary]
  split
  next c heq =>
    obtain ⟨hle, hcase⟩ := tierSentence_bound w _ c heq
    rcases hcase with h | h
    · exact Or.inl h
    · obtain ⟨hlt, hnc⟩ := isWsAt_head w c h
      exact Or.inr ⟨hlt, hnc⟩
  next =>
    split
    next p heq2 =>
      obtain ⟨hlt, hbyte⟩ := rfindSeq_byte w 10 [10] p (tierCheck_some _ _ _ heq2)
      exact Or.inr ⟨hlt, by rw [hbyte]; rfl⟩
    next =>
      split
      next p heq3 =>
        obtain ⟨hlt, hbyte⟩ := rfindSeq_byte w 10 [35] p (tierCheck_some _ _ _ heq3)
        exact Or.inr ⟨hlt, by rw [hbyte]; rfl⟩
      next =>
        split
        next p heq4 =>
          obtain ⟨hlt, hbyte⟩ := rfindSeq_byte w 10 [] p (tierCheck_some _ _ _ heq4)
          exact Or.inr ⟨hlt, by rw [hbyte]; rfl⟩
        next =>
          split
          next p heq5 =>
            split_ifs with hp
            · obtain ⟨hlt, hnc⟩ := isWsAt_head w p (lastWsPos_ws w p heq5)
              exact Or.inr ⟨hlt, hnc⟩
            · exact Or.inl rfl
          next => exact Or.inl rfl

theorem find_last_boundary_le (w : BStr) : find_last_boundary w ≤ w.length := by
  rcases find_last_boundary_spec w with h | h
  · omega
  · omega

theorem cont_of_range (c lo hi : ℕ) (hlo : 128 ≤ lo) (hhi : hi ≤ 191)
    (h1 : lo ≤ c) (h2 : c ≤ hi) : isContByte c = true := by
  rw [isContByte]
  simp only [Bool.and_eq_true, decide_eq_true_eq]
  omega

theorem utf8ValidF_fuel (f1 : ℕ) : ∀ (f2 : ℕ) (s : BStr), s.length ≤ f1 → s.length ≤ f2 →
    utf8ValidF f1 s = utf8ValidF f2 s := by
  induction f1 with
  | zero =>
    intro f2 s h1 h2
    have hs : s = [] := List.length_eq_zero.mp (by omega)
    subst hs
    cases f2 <;> rfl
  | succ f1 ih =>
    intro f2 s h1 h2
    cases s with
    | nil => cases f2 <;> rfl
    | cons b rest =>
      cases f2 with
      | zero => simp at h2
      | succ f2 =>
        rw [utf8ValidF, utf8ValidF]
        cases hk : utf8Len b with
        | none => rfl
        | some k =>
          dsimp only
          congr 1
          apply ih
          · have := List.length_drop (k - 1) rest
            simp at h1
            omega
          · have := List.length_drop (k - 1) rest
            simp at h2
            omega

theorem utf8ContOk_mem_cont (b : ℕ) (tail : List ℕ) (h : utf8ContOk b tail = true) :
    ∀ c ∈ tail, isContByte c = true := by
  rw [utf8ContOk] at h
  simp only [Bool.and_eq_true, List.all_eq_true] at h
  exact h.1.2

theorem utf8ContOk_length (b k : ℕ) (tail : List ℕ) (hk : utf8Len b = some k)
    (h : utf8ContOk b tail = true) : tail.length = k - 1 := by
  rw [utf8ContOk] at h
  simp only [Bool.and_eq_true, beq_iff_eq, hk, Option.getD_some] at h
  have hk1 : 1 ≤ k := by
    rw [utf8Len] at hk
    split_ifs at hk <;> simp only [Option.some.injEq] at hk <;> omega
  omega

theorem utf8Len_pos (b k : ℕ) (h : utf8Len b = some k) : 1 ≤ k ∧ k ≤ 4 := by
  rw [utf8Len] at h
  split_ifs at h <;> simp only [Option.some.injEq] at h <;> omega

theorem getD_drop (l : BStr) (n m d : ℕ) : (l.drop n).getD m d = l.getD (n + m) d := by
  rw [List.getD_eq_getElem?_getD, List.getD_eq_getElem?_getD, List.getElem?_drop]

theorem getD_take (l : BStr) (n m d : ℕ) (h : m < n) :
    (l.take n).getD m d = l.getD m d := by
  rw [List.getD_eq_getElem?_getD, List.getD_eq_getElem?_getD, List.getElem?_take_of_lt h]

theorem getD_mem (l : BStr) (n d : ℕ) (h : n < l.length) : l.getD n d ∈ l := by
  rw [List.getD_eq_getElem?_getD, List.getElem?_eq_getElem h]
  exact List.getElem_mem h

theorem utf8ValidF_take (f : ℕ) : ∀ (s : BStr) (pos : ℕ), s.length ≤ f →
    utf8ValidF f s = true →
    (pos = 0 ∨ pos = s.length ∨ (pos < s.length ∧ isContByte (s.getD pos 0) = false)) →
    utf8ValidF f (s.take pos) = true := by
  induction f with
  | zero =>
    intro s pos h1 hv hb
    have hs : s = [] := List.length_eq_zero.mp (by omega)
    subst hs
    rw [List.take_nil]
    exact hv
  | succ f ih =>
    intro s pos h1 hv hb
    rcases s with - | ⟨b, rest⟩
    · rw [List.take_nil]
      exact hv
    · rcases Nat.eq_zero_or_pos pos with hpos0 | hposp
      · subst hpos0
        rw [List.take_zero]
        rfl
      · rw [utf8ValidF] at hv
        cases hk : utf8Len b with
        | none => rw [hk] at hv; exact absurd hv Bool.false_ne_true
        | some k =>
          rw [hk] at hv
          rw [show (match some k with
              | none => false
              | some k => utf8ContOk b (rest.take (k - 1)) &&
                  utf8ValidF f (rest.drop (k - 1)))
              = (utf8ContOk b (rest.take (k - 1)) &&
                  utf8ValidF f (rest.drop (k - 1))) from rfl] at hv
          rw [Bool.and_eq_true] at hv
          obtain ⟨hc, hr⟩ := hv
          have hk14 := utf8Len_pos b k hk
          have hlen : (rest.take (k - 1)).length = k - 1 :=
            utf8ContOk_length b k _ hk hc
          have hrlen : k - 1 ≤ rest.length := by
            rw [List.length_take] at hlen
            omega
          by_cases hposk : pos < k
          · exfalso
            rcases hb with h0 | hlenb | ⟨hlt, hnc⟩
            · omega
            · simp only [List.length_cons] at hlenb
              omega
            · have hposr : pos - 1 < k - 1 := by omega
              have hb2 : (b :: rest).getD pos 0 = rest.getD (pos - 1) 0 := by
                cases pos with
                | zero => omega
                | succ p => simp
              have hgd : (rest.take (k - 1)).getD (pos - 1) 0 = rest.getD (pos - 1) 0 :=
                getD_take rest (k - 1) (pos - 1) 0 hposr
              have hmem : rest.getD (pos - 1) 0 ∈ rest.take (k - 1) := by
                rw [← hgd]
                exact getD_mem _ _ _ (by omega)
              have hcont := utf8ContOk_mem_cont b _ hc _ hmem
              rw [hb2, hcont] at hnc
              exact absurd hnc (by simp)
          · have htake : (b :: rest).take pos = b :: rest.take (pos - 1) := by
              cases pos with
              | zero => omega
              | succ p => rw [List.take_succ_cons, Nat.succ_sub_one]
            rw [htake, utf8ValidF, hk]
            rw [show (match some k with
                | none => false
                | some k => utf8ContOk b ((rest.take (pos - 1)).take (k - 1)) &&
                    utf8ValidF f ((rest.take (pos - 1)).drop (k - 1)))
                = (utf8ContOk b ((rest.take (pos - 1)).take (k - 1)) &&
                    utf8ValidF f ((rest.take (pos - 1)).drop (k - 1))) from rfl]
            rw [Bool.and_eq_true]
            constructor
            · rw [List.take_take, show min (k - 1) (pos - 1) = k - 1 from by omega]
              exact hc
            · rw [List.drop_take (pos - 1) (k - 1) rest]
              apply ih
              · have := List.length_drop (k - 1) rest
                simp only [List.length_cons] at h1
                omega
              · exact hr
              · rcases hb with h0 | hlenb | ⟨hlt, hnc⟩
                · omega
                · refine Or.inr (Or.inl ?_)
                  simp only [List.length_cons] at hlenb
                  rw [List.length_drop]
                  omega
                · by_cases hpk : pos = k
                  · exact Or.inl (by omega)
                  · refine Or.inr (Or.inr ⟨?_, ?_⟩)
                    · rw [List.length_drop]
                      simp only [List.length_cons] at hlt
                      omega
                    · rw [getD_drop,
                        show (k - 1) + ((pos - 1) - (k - 1)) = pos - 1 from by omega]
                      have hb2 : (b :: rest).getD pos 0 = rest.getD (pos - 1) 0 := by
                        cases pos with
                        | zero => omega
                        | succ p => simp
                      rw [← hb2]
                      exact hnc

theorem utf8ValidF_append (f : ℕ) : ∀ (s t : BStr) (F : ℕ), s.length ≤ f →
    utf8ValidF f s = true → utf8Valid t = true → (s ++ t).length ≤ F →
    utf8ValidF F (s ++ t) = true := by
  induction f with
  | zero =>
    intro s t F h1 hv ht hF
    have hs : s = [] := List.length_eq_zero.mp (by omega)
    subst hs
    rw [List.nil_append]
    rw [utf8ValidF_fuel F t.length t (by simpa using hF) (Nat.le_refl _)]
    exact ht
  | succ f ih =>
    intro s t F h1 hv ht hF
    rcases s with - | ⟨b, rest⟩
    · rw [List.nil_append]
      rw [utf8ValidF_fuel F t.length t (by simpa using hF) (Nat.le_refl _)]
      exact ht
    · rw [utf8ValidF] at hv
      cases hk : utf8Len b with
      | none => rw [hk] at hv; exact absurd hv Bool.false_ne_true
      | some k =>
        rw [hk] at hv
        rw [show (match some k with
            | none => false
            | some k => utf8ContOk b (rest.take (k - 1)) &&
                utf8ValidF f (rest.drop (k - 1)))
            = (utf8ContOk b (rest.take (k - 1)) &&
                utf8ValidF f (rest.drop (k - 1))) from rfl] at hv
      
        rw [Bool.and_eq_true] at hv
        obtain ⟨hc, hr⟩ := hv
        have hlen : (rest.take (k - 1)).length = k - 1 :=
          utf8ContOk_length b k _ hk hc
        have hrlen : k - 1 ≤ rest.length := by
          rw [List.length_take] at hlen
          omega
        cases F with
        | zero => simp at hF
        | succ F =>
          rw [List.cons_append, utf8ValidF, hk]
          rw [show (match some k with
              | none => false
              | some k => utf8ContOk b ((rest ++ t).take (k - 1)) &&
                  utf8ValidF F ((rest ++ t).drop (k - 1)))
              = (utf8ContOk b ((rest ++ t).take (k - 1)) &&
                  utf8ValidF F ((rest ++ t).drop (k - 1))) from rfl]
          rw [Bool.and_eq_true]
          constructor
          · rw [List.take_append_of_le_length hrlen]
            exact hc
          · rw [List.drop_append_of_le_length hrlen]
            apply ih
            · have := List.length_drop (k - 1) rest
              simp only [List.length_cons] at h1
              omega
            · exact hr
            · exact ht
            · simp only [List.length_append, List.length_drop]
              simp only [List.cons_append, List.length_cons, List.length_append] at hF
              omega

theorem utf8Valid_take (s : BStr) (pos : ℕ) (hv : utf8Valid s = true)
    (hb : pos = 0 ∨ pos = s.length ∨
      (pos < s.length ∧ isContByte (s.getD pos 0) = false)) :
    utf8Valid (s.take pos) = true := by
  have h := utf8ValidF_take s.length s pos (Nat.le_refl _) hv hb
  rw [utf8Valid,
    utf8ValidF_fuel (s.take pos).length s.length (s.take pos)
      (Nat.le_refl _) (by rw [List.length_take]; omega)]
  exact h

theorem utf8Valid_append (s t : BStr) (hs : utf8Valid s = true)
    (ht : utf8Valid t = true) : utf8Valid (s ++ t) = true :=
  utf8ValidF_append s.length s t (s ++ t).length (Nat.le_refl _) hs ht (Nat.le_refl _)

/-! ## C5 — truncate: identity under the limit, byte bound, UTF-8
safety, and the `"..."` suffix -/

/-- Counterexample to C5 as stated: with `max_bytes = 0` the non-empty
text `"a"` is truncated (the result differs from the input) yet the
result is `""`, which does not end in `"..."` — the "ends with `...`
iff truncation occurred" biconditional fails on the
`floor_char_boundary = 0` path of truncation.rs:98-100. -/
theorem truncate_ellipsis_iff_counterexample :
    truncate_at_sentence_boundary [97] 0 = [] ∧
      truncate_at_sentence_boundary [97] 0 ≠ [97] ∧
      dots.isSuffixOf (truncate_at_sentence_boundary [97] 0) = false := by
  decide

/-- C5 (amended): `truncate(t, m)` returns `t` unchanged when
`|t| ≤ m`; otherwise the result is at most `m + 3` bytes, is valid
UTF-8 whenever the input is, and ends with `"..."` — except on the
degenerate path where no positive char boundary fits below `m`
(`floor_char_boundary t m = 0`), where it returns `""` without the
suffix. -/
theorem truncate_spec (text : BStr) (m : ℕ) (hv : utf8Valid text = true) :
    (text.length ≤ m → truncate_at_sentence_boundary text m = text) ∧
      (m < text.length →
        (truncate_at_sentence_boundary text m).length ≤ m + 3 ∧
        utf8Valid (truncate_at_sentence_boundary text m) = true ∧
        (0 < floor_char_boundary text m →
          dots.isSuffixOf (truncate_at_sentence_boundary text m) = true) ∧
        (floor_char_boundary text m = 0 →
          truncate_at_sentence_boundary text m = [])) := by
  constructor
  · intro h
    rw [truncate_at_sentence_boundary, if_pos h]
  · intro hlt
    rw [truncate_at_sentence_boundary, if_neg (by omega)]
    by_cases h0 : floor_char_boundary text m = 0
    · rw [if_pos h0]
      exact ⟨by simp, by rfl, fun hp => absurd h0 (by omega), fun _ => rfl⟩
    · rw [if_neg h0]
      have hse_le : floor_char_boundary text m ≤ min m text.length :=
        floor_char_boundary_le text m
      have hwin_len : (text.take (floor_char_boundary text m)).length
          = floor_char_boundary text m := by
        rw [List.length_take]
        omega
      have hpos_le : find_last_boundary (text.take (floor_char_boundary text m))
          ≤ floor_char_boundary text m := by
        have := find_last_boundary_le (text.take (floor_char_boundary text m))
        omega
      refine ⟨?_, ?_, fun _ => ?_, fun habs => absurd habs h0⟩
      · rw [List.length_append, List.length_take]
        have : dots.length = 3 := rfl
        omega
      · apply utf8Valid_append
        · apply utf8Valid_take text _ hv
          rcases find_last_boundary_spec (text.take (floor_char_boundary text m)) with
            hcase | ⟨hlt2, hnc⟩
          · rw [hwin_len] at hcase
            have hbnd : is_char_boundary text (floor_char_boundary text m) = true :=
              floorCB_boundary text (min m text.length)
            rcases is_char_boundary_cases text _ hbnd with h | h | ⟨hb1, hb2⟩
            · exact Or.inl (by omega)
            · exact Or.inr (Or.inl (by omega))
            · exact Or.inr (Or.inr ⟨by omega, by rw [hcase]; exact hb2⟩)
          · rw [hwin_len] at hlt2
            refine Or.inr (Or.inr ⟨by omega, ?_⟩)
            rw [← getD_take text (floor_char_boundary text m) _ 0 hlt2]
            exact hnc
        · decide
      · rw [List.isSuffixOf_iff_suffix]
        exact List.suffix_append _ _

/-- Witness for C5 at a concrete truncating input. -/
theorem truncate_spec_witness :
    (truncate_at_sentence_boundary [97, 98] 1).length ≤ 1 + 3 ∧
      utf8Valid (truncate_at_sentence_boundary [97, 98] 1) = true :=
  ⟨((truncate_spec [97, 98] 1 (by decide)).2 (by decide)).1,
   ((truncate_spec [97, 98] 1 (by decide)).2 (by decide)).2.1⟩

/-! ## C10 — tiny `max_bytes` yields the empty string with no `"..."` -/

/-- C10: for every non-empty text and a `max_bytes` small enough that no
char boundary above 0 is `≤ max_bytes` (`floor_char_boundary t m = 0`,
e.g. `m = 0`), `truncate` returns the empty string with no `"..."`
suffix even though the text was shortened. -/
theorem truncate_tiny_max_empty (t : BStr) (m : ℕ) (h1 : t ≠ [])
    (h2 : floor_char_boundary t m = 0) :
    truncate_at_sentence_boundary t m = [] ∧
      dots.isSuffixOf (truncate_at_sentence_boundary t m) = false ∧
      truncate_at_sentence_boundary t m ≠ t := by
  have hlen0 : 0 < t.length := by
    cases t with
    | nil => exact absurd rfl h1
    | cons a r => simp
  have hm : m < t.length := by
    by_contra hge
    have hmin : min m t.length = t.length := by omega
    rw [floor_char_boundary, hmin] at h2
    have hb : is_char_boundary t t.length = true := by
      rw [is_char_boundary]
      split_ifs with ha hb2
      · rfl
      · omega
      · simp
    have := floorCB_pos_of_boundary t t.length hlen0 hb
    omega
  have hres : truncate_at_sentence_boundary t m = [] := by
    rw [truncate_at_sentence_boundary, if_neg (by omega), if_pos h2]
  refine ⟨hres, ?_, ?_⟩
  · rw [hres]
    decide
  · rw [hres]
    exact fun e => h1 e.symm

/-- Witness for C10 at `t = "a"`, `m = 0`. -/
theorem truncate_tiny_max_empty_witness :
    truncate_at_sentence_boundary [97] 0 = [] ∧
      dots.isSuffixOf (truncate_at_sentence_boundary [97] 0) = false ∧
      truncate_at_sentence_boundary [97] 0 ≠ [97] :=
  truncate_tiny_max_empty [97] 0 (by decide) (by decide)

/-! ## C6 — chunk window advance rule -/

/-- Counterexample to C6 as stated: with `text = "a"*12`,
`chunk_size = 10`, `overlap = 20` the first iteration emits the 10-byte
chunk ending at `actual_end = 10` and then sets `start = actual_end =
10` (because `actual_end ≤ overlap` makes `overlap_start = actual_end`),
not `max(actual_end − overlap, previous_start + 1) = 1` as the claim's
formula requires. -/
theorem chunk_advance_formula_counterexample :
    chunkStep (List.replicate 12 97) 10 20 0 = (List.replicate 10 97, 10) ∧
      (chunkStep (List.replicate 12 97) 10 20 0).2 ≠ max (10 - 20) (0 + 1) := by
  decide

/-- C6 (amended): when `|text| ≤ chunk_size` the chunker returns
`[text]`; otherwise, after emitting a chunk that ends at
`actual_end = start + boundary`, the next start is
`floor_char_boundary(text, actual_end − overlap)` when `actual_end >
overlap` and that position lies strictly beyond the previous start, and
`actual_end` itself otherwise — in particular the start strictly
increases whenever the emitted boundary is positive. -/
theorem chunk_text_advance (text : BStr) (chunkSize overlap start : ℕ) :
    (text.length ≤ chunkSize → chunk_text text chunkSize overlap = [text]) ∧
      ((chunkStep text chunkSize overlap start).2 =
        (let actualEnd := start + find_last_boundary (windowAt text chunkSize start)
         let overlapStart :=
           if overlap < actualEnd then floor_char_boundary text (actualEnd - overlap)
           else actualEnd
         if overlapStart ≤ start then actualEnd else overlapStart)) ∧
      (0 < find_last_boundary (windowAt text chunkSize start) →
        start < (chunkStep text chunkSize overlap start).2) := by
  refine ⟨?_, ?_, ?_⟩
  · intro h
    rw [chunk_text, if_pos h]
  · rfl
  · intro hb
    rw [chunkStep]
    dsimp only
    by_cases hov : overlap < start + find_last_boundary (windowAt text chunkSize start)
    · rw [if_pos hov]
      by_cases hos : floor_char_boundary text
          (start + find_last_boundary (windowAt text chunkSize start) - overlap) ≤ start
      · rw [if_pos hos]
        omega
      · rw [if_neg hos]
        omega
    · rw [if_neg hov, if_neg (by omega)]
      omega

/-- Witness for C6: a one-byte text below the chunk size, and a strictly
advancing step on a window with positive boundary. -/
theorem chunk_text_advance_witness :
    chunk_text [97] 1 0 = [[97]] ∧ 0 < (chunkStep [97] 1 0 0).2 :=
  ⟨(chunk_text_advance [97] 1 0 0).1 (by decide),
   (chunk_text_advance [97] 1 0 0).2.2 (by decide)⟩

/-! ## C7 — chunk_text does not always terminate -/

/-- C7 is violated by the code: on `text = "\n\naaaa"` with
`chunk_size = 3`, `overlap = 0`, the window is `"\n\na"`, whose
`find_last_boundary` is 0 (the paragraph-break tier accepts position 0
because `min_pos = 3/5 = 0`), so `actual_end = start`, the loop pushes
the empty chunk and `start` never advances: the source `while` loop
(truncation.rs:120-147) runs forever, emitting `""` each iteration —
for every fuel bound the embedded loop emits exactly that many empty
chunks.  This contradicts the claim (and the code's own "Ensure forward
progress" comment). -/
theorem chunk_loop_no_progress :
    chunkStep [10, 10, 97, 97, 97, 97] 3 0 0 = ([], 0) ∧
      ∀ f, chunkLoop f [10, 10, 97, 97, 97, 97] 3 0 0 = List.replicate f [] := by
  refine ⟨by decide, ?_⟩
  intro f
  induction f with
  | zero => rfl
  | succ f ih =>
    rw [chunkLoop, if_pos (by decide), if_neg (by decide)]
    rw [show chunkStep [10, 10, 97, 97, 97, 97] 3 0 0 = ([], 0) from by decide]
    rw [List.replicate_succ]
    exact congrArg _ ih

/-! ## C9 — merging chunk concepts dedups by lowercased text and keeps
the maximum importance -/

theorem upsertConcept_keys (m : List (String × ConceptQ)) (k : String) (c : ConceptQ) :
    (upsertConcept m k c).map Prod.fst
      = if k ∈ m.map Prod.fst then m.map Prod.fst else m.map Prod.fst ++ [k] := by
  induction m with
  | nil => simp [upsertConcept]
  | cons hd tl ih =>
    obtain ⟨k0, c0⟩ := hd
    by_cases h : k0 = k
    · simp [upsertConcept, h]
    · simp only [upsertConcept, if_neg h, List.map_cons, ih]
      by_cases hm : k ∈ tl.map Prod.fst
      · simp [hm, Ne.symm h]
      · simp [hm, Ne.symm h]

theorem upsertConcept_key_inv (m : List (String × ConceptQ)) (k : String) (c : ConceptQ)
    (lower : String → String)
    (hm : ∀ kv ∈ m, lower kv.2.concept = kv.1) (hc : lower c.concept = k) :
    ∀ kv ∈ upsertConcept m k c, lower kv.2.concept = kv.1 := by
  induction m with
  | nil =>
    intro kv hkv
    simp only [upsertConcept, List.mem_singleton] at hkv
    subst hkv
    exact hc
  | cons hd tl ih =>
    obtain ⟨k0, c0⟩ := hd
    intro kv hkv
    by_cases h : k0 = k
    · rw [upsertConcept, if_pos h] at hkv
      rcases List.mem_cons.mp hkv with rfl | hkv2
      · by_cases hi : c0.importance < c.importance
        · simpa [hi, h] using hc
        · simpa [hi] using hm (k0, c0) (List.mem_cons_self _ _)
      · exact hm kv (List.mem_cons_of_mem _ hkv2)
    · rw [upsertConcept, if_neg h] at hkv
      rcases List.mem_cons.mp hkv with rfl | hkv2
      · exact hm (k0, c0) (List.mem_cons_self _ _)
      · exact ih (fun kv h2 => hm kv (List.mem_cons_of_mem _ h2)) kv hkv2

theorem upsertConcept_values_sub (m : List (String × ConceptQ)) (k : String) (c : ConceptQ) :
    ∀ kv ∈ upsertConcept m k c, kv.2 ∈ m.map Prod.snd ∨ kv.2 = c := by
  induction m with
  | nil =>
    intro kv hkv
    simp only [upsertConcept, List.mem_singleton] at hkv
    subst hkv
    exact Or.inr rfl
  | cons hd tl ih =>
    obtain ⟨k0, c0⟩ := hd
    intro kv hkv
    by_cases h : k0 = k
    · rw [upsertConcept, if_pos h] at hkv
      rcases List.mem_cons.mp hkv with rfl | hkv2
      · by_cases hi : c0.importance < c.importance
        · simp [hi]
        · simp [hi]
      · exact Or.inl (by simp; exact Or.inr ⟨kv.1, by simpa using hkv2⟩)
    · rw [upsertConcept, if_neg h] at hkv
      rcases List.mem_cons.mp hkv with rfl | hkv2
      · exact Or.inl (by simp)
      · rcases ih kv hkv2 with hin | he
        · exact Or.inl (by simp; right; simpa using hin)
        · exact Or.inr he

theorem upsertConcept_self (m : List (String × ConceptQ)) (k : String) (c : ConceptQ) :
    ∃ kv ∈ upsertConcept m k c, kv.1 = k ∧ c.importance ≤ kv.2.importance := by
  induction m with
  | nil => exact ⟨(k, c), by simp [upsertConcept]⟩
  | cons hd tl ih =>
    obtain ⟨k0, c0⟩ := hd
    by_cases h : k0 = k
    · rw [upsertConcept, if_pos h]
      by_cases hi : c0.importance < c.importance
      · exact ⟨(k0, c), by simp [hi, h]⟩
      · exact ⟨(k0, c0), by simp [hi, h]; exact le_of_not_lt hi⟩
    · rw [upsertConcept, if_neg h]
      obtain ⟨kv, hkv, hk, hi⟩ := ih
      exact ⟨kv, List.mem_cons_of_mem _ hkv, hk, hi⟩

theorem upsertConcept_mono (m : List (String × ConceptQ)) (k : String) (c : ConceptQ) :
    ∀ kv ∈ m, ∃ kv2 ∈ upsertConcept m k c,
      kv2.1 = kv.1 ∧ kv.2.importance ≤ kv2.2.importance := by
  induction m with
  | nil => intro kv hkv; simp at hkv
  | cons hd tl ih =>
    obtain ⟨k0, c0⟩ := hd
    intro kv hkv
    by_cases h : k0 = k
    · rw [upsertConcept, if_pos h]
      rcases List.mem_cons.mp hkv with rfl | hkv2
      · by_cases hi : c0.importance < c.importance
        · exact ⟨(k0, if c0.importance < c.importance then c else c0),
            List.mem_cons_self _ _, rfl, by simp [hi]; exact le_of_lt hi⟩
        · exact ⟨(k0, if c0.importance < c.importance then c else c0),
            List.mem_cons_self _ _, rfl, by simp [hi]⟩
      · exact ⟨kv, List.mem_cons_of_mem _ hkv2, rfl, le_refl _⟩
    · rw [upsertConcept, if_neg h]
      rcases List.mem_cons.mp hkv with rfl | hkv2
      · exact ⟨(k0, c0), List.mem_cons_self _ _, rfl, le_refl _⟩
      · obtain ⟨kv2, hkv2m, hk, hi⟩ := ih kv hkv2
        exact ⟨kv2, List.mem_cons_of_mem _ hkv2m, hk, hi⟩

theorem foldl_foldl_flatten {α β : Type} (f : β → α → β) (L : List (List α)) :
    ∀ m : β, L.foldl (fun m cs => cs.foldl f m) m = (L.flatten).foldl f m := by
  induction L with
  | nil => intro m; rfl
  | cons cs rest ih =>
    intro m
    rw [List.foldl_cons, List.flatten_cons, List.foldl_append, ih]

theorem foldl_upsert_key_inv (lower : String → String) (l : List ConceptQ) :
    ∀ m, (∀ kv ∈ m, lower kv.2.concept = kv.1) →
      ∀ kv ∈ l.foldl (fun m c => upsertConcept m (lower c.concept) c) m,
        lower kv.2.concept = kv.1 := by
  induction l with
  | nil => exact fun m hm => hm
  | cons c rest ih =>
    intro m hm
    rw [List.foldl_cons]
    exact ih _ (upsertConcept_key_inv m (lower c.concept) c lower hm rfl)

theorem foldl_upsert_keys_nodup (lower : String → String) (l : List ConceptQ) :
    ∀ m, ((m.map Prod.fst).Nodup) →
      (((l.foldl (fun m c => upsertConcept m (lower c.concept) c) m).map Prod.fst)).Nodup := by
  induction l with
  | nil => exact fun m hm => hm
  | cons c rest ih =>
    intro m hm
    rw [List.foldl_cons]
    refine ih _ ?_
    rw [upsertConcept_keys]
    by_cases h : lower c.concept ∈ m.map Prod.fst
    · simpa [h] using hm
    · simp [List.nodup_append, hm, h]

theorem foldl_upsert_values_sub (lower : String → String) (l : List ConceptQ) :
    ∀ m, ∀ kv ∈ l.foldl (fun m c => upsertConcept m (lower c.concept) c) m,
      kv.2 ∈ m.map Prod.snd ∨ kv.2 ∈ l := by
  induction l with
  | nil => exact fun m kv hkv => Or.inl (List.mem_map_of_mem _ hkv)
  | cons c rest ih =>
    intro m kv hkv
    rw [List.foldl_cons] at hkv
    rcases ih _ kv hkv with hin | hl
    · rw [List.mem_map] at hin
      obtain ⟨kv2, hkv2, he⟩ := hin
      rcases upsertConcept_values_sub m (lower c.concept) c kv2 hkv2 with h2 | h2
      · exact Or.inl (he ▸ h2)
      · exact Or.inr (by rw [← he, h2]; exact List.mem_cons_self _ _)
    · exact Or.inr (List.mem_cons_of_mem _ hl)

theorem foldl_upsert_mono (lower : String → String) (l : List ConceptQ) :
    ∀ m, ∀ kv ∈ m, ∃ kv2 ∈ l.foldl (fun m c => upsertConcept m (lower c.concept) c) m,
      kv2.1 = kv.1 ∧ kv.2.importance ≤ kv2.2.importance := by
  induction l with
  | nil => exact fun m kv hkv => ⟨kv, hkv, rfl, le_refl _⟩
  | cons c rest ih =>
    intro m kv hkv
    rw [List.foldl_cons]
    obtain ⟨kv1, hkv1, hk1, hi1⟩ := upsertConcept_mono m (lower c.concept) c kv hkv
    obtain ⟨kv2, hkv2, hk2, hi2⟩ := ih _ kv1 hkv1
    exact ⟨kv2, hkv2, hk2.trans hk1, hi1.trans hi2⟩

theorem foldl_upsert_covers (lower : String → String) (l : List ConceptQ) :
    ∀ m, ∀ c ∈ l, ∃ kv ∈ l.foldl (fun m c => upsertConcept m (lower c.concept) c) m,
      kv.1 = lower c.concept ∧ c.importance ≤ kv.2.importance := by
  induction l with
  | nil => intro m c hc; simp at hc
  | cons c0 rest ih =>
    intro m c hc
    rw [List.foldl_cons]
    rcases List.mem_cons.mp hc with rfl | hc2
    · obtain ⟨kv1, hkv1, hk1, hi1⟩ := upsertConcept_self m (lower c.concept) c
      obtain ⟨kv2, hkv2, hk2, hi2⟩ := foldl_upsert_mono lower rest _ kv1 hkv1
      exact ⟨kv2, hkv2, hk2.trans hk1, hi1.trans hi2⟩
    · exact ih _ c hc2

theorem nodup_keys_unique (m : List (String × ConceptQ))
    (h : (m.map Prod.fst).Nodup) :
    ∀ kv1 ∈ m, ∀ kv2 ∈ m, kv1.1 = kv2.1 → kv1 = kv2 := by
  induction m with
  | nil => intro kv1 h1; simp at h1
  | cons hd tl ih =>
    intro kv1 h1 kv2 h2 hk
    rw [List.map_cons, List.nodup_cons] at h
    rcases List.mem_cons.mp h1 with rfl | h1t
    · rcases List.mem_cons.mp h2 with rfl | h2t
      · rfl
      · exact absurd (hk ▸ List.mem_map_of_mem Prod.fst h2t) h.1
    · rcases List.mem_cons.mp h2 with rfl | h2t
      · exact absurd (hk ▸ List.mem_map_of_mem Prod.fst h1t) h.1
      · exact ih h.2 kv1 h1t kv2 h2t hk

/-- C9: merging per-chunk concept lists deduplicates by lowercased
concept text and keeps, for each name, an input entry with the highest
importance: the output's lowercased names are distinct, every output
entry is an input entry, every input name is represented, and every
output entry's importance dominates all input entries with the same
lowercased name. -/
theorem merge_chunk_concepts_spec (lower : String → String)
    (chunkResults : List (List ConceptQ)) :
    ((merge_chunk_concepts lower chunkResults).map (fun d => lower d.concept)).Nodup ∧
      (∀ d ∈ merge_chunk_concepts lower chunkResults, d ∈ chunkResults.flatten) ∧
      (∀ c ∈ chunkResults.flatten, ∃ d ∈ merge_chunk_concepts lower chunkResults,
        lower d.concept = lower c.concept ∧ c.importance ≤ d.importance) ∧
      (∀ d ∈ merge_chunk_concepts lower chunkResults, ∀ c ∈ chunkResults.flatten,
        lower c.concept = lower d.concept → c.importance ≤ d.importance) := by
  have hfold : merge_chunk_concepts lower chunkResults
      = ((chunkResults.flatten).foldl
          (fun m c => upsertConcept m (lower c.concept) c) []).map Prod.snd := by
    rw [merge_chunk_concepts, foldl_foldl_flatten]
  have hkeyinv := foldl_upsert_key_inv lower chunkResults.flatten [] (by simp)
  have hnodup := foldl_upsert_keys_nodup lower chunkResults.flatten [] (by simp)
  refine ⟨?_, ?_, ?_, ?_⟩
  · rw [hfold, List.map_map]
    have : ((chunkResults.flatten).foldl
        (fun m c => upsertConcept m (lower c.concept) c) []).map
          ((fun d => lower d.concept) ∘ Prod.snd)
        = ((chunkResults.flatten).foldl
            (fun m c => upsertConcept m (lower c.concept) c) []).map Prod.fst :=
      List.map_congr_left (fun kv hkv => hkeyinv kv hkv)
    rw [this]
    exact hnodup
  · intro d hd
    rw [hfold, List.mem_map] at hd
    obtain ⟨kv, hkv, he⟩ := hd
    rcases foldl_upsert_values_sub lower chunkResults.flatten [] kv hkv with h | h
    · simp at h
    · exact he ▸ h
  · intro c hc
    obtain ⟨kv, hkv, hk, hi⟩ := foldl_upsert_covers lower chunkResults.flatten [] c hc
    refine ⟨kv.2, by rw [hfold]; exact List.mem_map_of_mem _ hkv, ?_, hi⟩
    rw [hkeyinv kv hkv, hk]
  · intro d hd c hc hname
    rw [hfold, List.mem_map] at hd
    obtain ⟨kv, hkv, he⟩ := hd
    obtain ⟨kv2, hkv2, hk2, hi2⟩ := foldl_upsert_covers lower chunkResults.flatten [] c hc
    have hkeq : kv2.1 = kv.1 := by
      rw [hk2, hname, ← he]
      exact hkeyinv kv hkv
    have := nodup_keys_unique _ hnodup kv2 hkv2 kv hkv hkeq
    rw [this] at hi2
    exact he ▸ hi2

/-- Witness for C9: two chunks disagreeing on the importance of `"x"`;
the merged entry carries the maximum, 3/4. -/
theorem merge_chunk_concepts_spec_witness :
    ∃ d ∈ merge_chunk_concepts id
        [[{ concept := "x", importance := 1/2 }], [{ concept := "x", importance := 3/4 }]],
      id d.concept = id "x" ∧ (3/4 : ℚ) ≤ d.importance :=
  (merge_chunk_concepts_spec id
    [[{ concept := "x", importance := 1/2 }], [{ concept := "x", importance := 3/4 }]]).2.2.1
    { concept := "x", importance := 3/4 } (by simp)

/-! ## C8 — candidate extractor output bounds -/

theorem foldl_max_init_le (l : List ℚ) : ∀ init : ℚ, init ≤ l.foldl max init := by
  induction l with
  | nil => intro init; exact le_refl _
  | cons x t ih =>
    intro init
    rw [List.foldl_cons]
    exact le_trans (le_max_left _ _) (ih _)

theorem mem_le_foldl_max (l : List ℚ) : ∀ (init x : ℚ), x ∈ l → x ≤ l.foldl max init := by
  induction l with
  | nil => intro init x hx; simp at hx
  | cons h t ih =>
    intro init x hx
    rw [List.foldl_cons]
    rcases List.mem_cons.mp hx with rfl | hxt
    · exact le_trans (le_max_right _ _) (foldl_max_init_le t _)
    · exact ih _ x hxt

theorem maxScore_nonneg (l : List ℚ) : 0 ≤ maxScore l := foldl_max_init_le l 0

theorem mem_le_maxScore (l : List ℚ) (x : ℚ) (hx : x ∈ l) : x ≤ maxScore l :=
  mem_le_foldl_max l 0 x hx

theorem upsertMax_bound (P : Type) [DecidableEq P] (m : List (P × ℚ)) (k : P) (v : ℚ)
    (hm : ∀ kv ∈ m, 0 ≤ kv.2 ∧ kv.2 ≤ 1) (hv : 0 ≤ v ∧ v ≤ 1) :
    ∀ kv ∈ upsertMax P m k v, 0 ≤ kv.2 ∧ kv.2 ≤ 1 := by
  induction m with
  | nil =>
    intro kv hkv
    simp only [upsertMax, List.mem_singleton] at hkv
    subst hkv
    exact hv
  | cons hd tl ih =>
    obtain ⟨k0, s⟩ := hd
    intro kv hkv
    by_cases h : k0 = k
    · rw [upsertMax, if_pos h] at hkv
      rcases List.mem_cons.mp hkv with rfl | hkv2
      · have hs := hm (k0, s) (List.mem_cons_self _ _)
        exact ⟨le_max_of_le_left hs.1, max_le hs.2 hv.2⟩
      · exact hm kv (List.mem_cons_of_mem _ hkv2)
    · rw [upsertMax, if_neg h] at hkv
      rcases List.mem_cons.mp hkv with rfl | hkv2
      · exact hm (k0, s) (List.mem_cons_self _ _)
      · exact ih (fun kv h2 => hm kv (List.mem_cons_of_mem _ h2)) kv hkv2

theorem upsertBoost_bound (P : Type) [DecidableEq P] (m : List (P × ℚ)) (k : P) (v : ℚ)
    (hm : ∀ kv ∈ m, 0 ≤ kv.2 ∧ kv.2 ≤ 1) (hv : 0 ≤ v ∧ v ≤ 1) :
    ∀ kv ∈ upsertBoost P m k v, 0 ≤ kv.2 ∧ kv.2 ≤ 1 := by
  induction m with
  | nil =>
    intro kv hkv
    simp only [upsertBoost, List.mem_singleton] at hkv
    subst hkv
    constructor
    · exact mul_nonneg hv.1 (by norm_num)
    · nlinarith [hv.1, hv.2]
  | cons hd tl ih =>
    obtain ⟨k0, s⟩ := hd
    intro kv hkv
    by_cases h : k0 = k
    · rw [upsertBoost, if_pos h] at hkv
      rcases List.mem_cons.mp hkv with rfl | hkv2
      · have hs := hm (k0, s) (List.mem_cons_self _ _)
        refine ⟨le_min (by nlinarith [hs.1, hv.1]) (by norm_num), min_le_right _ _⟩
      · exact hm kv (List.mem_cons_of_mem _ hkv2)
    · rw [upsertBoost, if_neg h] at hkv
      rcases List.mem_cons.mp hkv with rfl | hkv2
      · exact hm (k0, s) (List.mem_cons_self _ _)
      · exact ih (fun kv h2 => hm kv (List.mem_cons_of_mem _ h2)) kv hkv2

theorem foldl_upsertMax_bound (P : Type) [DecidableEq P] (l : List (P × ℚ))
    (g : P × ℚ → P) (f : P × ℚ → ℚ) :
    ∀ m, (∀ kv ∈ m, 0 ≤ kv.2 ∧ kv.2 ≤ 1) → (∀ pr ∈ l, 0 ≤ f pr ∧ f pr ≤ 1) →
      ∀ kv ∈ l.foldl (fun m pr => upsertMax P m (g pr) (f pr)) m,
        0 ≤ kv.2 ∧ kv.2 ≤ 1 := by
  induction l with
  | nil => exact fun m hm _ => hm
  | cons pr rest ih =>
    intro m hm hl
    rw [List.foldl_cons]
    exact ih _ (upsertMax_bound P m (g pr) (f pr) hm (hl pr (List.mem_cons_self _ _)))
      (fun q hq => hl q (List.mem_cons_of_mem _ hq))

theorem foldl_upsertBoost_bound (P : Type) [DecidableEq P] (l : List (P × ℚ))
    (g : P × ℚ → P) (f : P × ℚ → ℚ) :
    ∀ m, (∀ kv ∈ m, 0 ≤ kv.2 ∧ kv.2 ≤ 1) → (∀ pr ∈ l, 0 ≤ f pr ∧ f pr ≤ 1) →
      ∀ kv ∈ l.foldl (fun m pr => upsertBoost P m (g pr) (f pr)) m,
        0 ≤ kv.2 ∧ kv.2 ≤ 1 := by
  induction l with
  | nil => exact fun m hm _ => hm
  | cons pr rest ih =>
    intro m hm hl
    rw [List.foldl_cons]
    exact ih _ (upsertBoost_bound P m (g pr) (f pr) hm (hl pr (List.mem_cons_self _ _)))
      (fun q hq => hl q (List.mem_cons_of_mem _ hq))

theorem extract_tfidf_bigrams_bound (P : Type) [DecidableEq P] (env : NlpEnv P)
    (words : List P) (tfidfMax : ℚ)
    (hget : ∀ w, 0 ≤ env.getScore w ∧ env.getScore w ≤ tfidfMax)
    (hsqrt1 : ∀ q, 0 ≤ q → 0 ≤ env.sqrtQ q)
    (hsqrt2 : ∀ q M, 0 ≤ q → 0 ≤ M → q ≤ M * M → env.sqrtQ q ≤ M) :
    ∀ pr ∈ extract_tfidf_bigrams P env words tfidfMax, 0 ≤ pr.2 ∧ pr.2 ≤ 1 := by
  intro pr hpr
  rw [extract_tfidf_bigrams] at hpr
  split_ifs at hpr with hneg
  · simp at hpr
  · have htm : 0 < tfidfMax := lt_of_not_le hneg
    rw [List.mem_filterMap] at hpr
    obtain ⟨k, hk, hbind⟩ := hpr
    rw [Option.bind_eq_some] at hbind
    obtain ⟨kv, hfind, hbind⟩ := hbind
    dsimp only at hbind
    split_ifs at hbind with hpos
    · simp only [Option.some.injEq] at hbind
      subst hbind
      have hg1 := hget kv.2.1
      have hg2 := hget kv.2.2
      have hprod : 0 ≤ env.getScore kv.2.1 * env.getScore kv.2.2 :=
        mul_nonneg hg1.1 hg2.1
      have hle : env.getScore kv.2.1 * env.getScore kv.2.2 ≤ tfidfMax * tfidfMax :=
        mul_le_mul hg1.2 hg2.2 hg2.1 (le_of_lt htm)
      have hsq1 := hsqrt1 _ hprod
      have hsq2 := hsqrt2 _ tfidfMax hprod (le_of_lt htm) hle
      constructor
      · exact div_nonneg hsq1 (le_of_lt htm)
      · rw [div_le_one htm]
        exact hsq2

theorem upsertStem_pres (P : Type) [DecidableEq P] (Q : P → Prop) (S : ℚ → Prop)
    (m : List (P × P × ℚ × ℕ)) (k ph : P) (sc : ℚ)
    (hm : ∀ kv ∈ m, Q kv.2.1 ∧ S kv.2.2.1) (hph : Q ph) (hsc : S sc) :
    ∀ kv ∈ upsertStem P m k ph sc, Q kv.2.1 ∧ S kv.2.2.1 := by
  induction m with
  | nil =>
    intro kv hkv
    simp only [upsertStem, List.mem_singleton] at hkv
    subst hkv
    exact ⟨hph, hsc⟩
  | cons hd tl ih =>
    obtain ⟨k0, v⟩ := hd
    intro kv hkv
    by_cases h : k0 = k
    · rw [upsertStem, if_pos h] at hkv
      rcases List.mem_cons.mp hkv with rfl | hkv2
      · by_cases hi : v.2.1 < sc
        · simpa [hi] using ⟨hph, hsc⟩
        · have := hm (k0, v) (List.mem_cons_self _ _)
          simpa [hi] using this
      · exact hm kv (List.mem_cons_of_mem _ hkv2)
    · rw [upsertStem, if_neg h] at hkv
      rcases List.mem_cons.mp hkv with rfl | hkv2
      · exact hm (k0, v) (List.mem_cons_self _ _)
      · exact ih (fun kv h2 => hm kv (List.mem_cons_of_mem _ h2)) kv hkv2

theorem foldl_upsertStem_pres (P : Type) [DecidableEq P] (env : NlpEnv P)
    (Q : P → Prop) (S : ℚ → Prop) (l : List (P × ℚ)) :
    ∀ m, (∀ kv ∈ m, Q kv.2.1 ∧ S kv.2.2.1) → (∀ pr ∈ l, Q pr.1 ∧ S pr.2) →
      ∀ kv ∈ l.foldl (fun m kv => upsertStem P m (env.stemPhrase kv.1) kv.1 kv.2) m,
        Q kv.2.1 ∧ S kv.2.2.1 := by
  induction l with
  | nil => exact fun m hm _ => hm
  | cons pr rest ih =>
    intro m hm hl
    rw [List.foldl_cons]
    exact ih _
      (upsertStem_pres P Q S m (env.stemPhrase pr.1) pr.1 pr.2 hm
        (hl pr (List.mem_cons_self _ _)).1 (hl pr (List.mem_cons_self _ _)).2)
      (fun q hq => hl q (List.mem_cons_of_mem _ hq))

/-- C8: the candidate extractor returns at most `max_candidates`
entries, sorted by score descending; every score lies in `[0,1]`; every
phrase has at most 3 whitespace tokens and at least 2 bytes; and the
result is empty for texts shorter than 50 bytes.  The hypotheses are
the library contracts: RAKE and TF-IDF scores are non-negative,
`tfidf.get_score` never exceeds the maximum of the ranked word scores,
and `sqrtQ` (abstracting `f32::sqrt`) is non-negative and monotone
below squares. -/
theorem extract_candidates_spec (P : Type) [DecidableEq P] (env : NlpEnv P)
    (textLen : ℕ) (words : List P)
    (rakeResults rakeKeywords tfidfResults : List (P × ℚ)) (maxCandidates : ℕ)
    (hrake : ∀ pr ∈ rakeResults ++ rakeKeywords, 0 ≤ pr.2)
    (htfidf : ∀ pr ∈ tfidfResults, 0 ≤ pr.2)
    (hget : ∀ w, 0 ≤ env.getScore w ∧
      env.getScore w ≤ maxScore (tfidfResults.map Prod.snd))
    (hsqrt1 : ∀ q, 0 ≤ q → 0 ≤ env.sqrtQ q)
    (hsqrt2 : ∀ q M, 0 ≤ q → 0 ≤ M → q ≤ M * M → env.sqrtQ q ≤ M) :
    (extract_candidates P env textLen words rakeResults rakeKeywords tfidfResults
        maxCandidates).length ≤ maxCandidates ∧
      (extract_candidates P env textLen words rakeResults rakeKeywords tfidfResults
        maxCandidates).Sorted (candGE P) ∧
      (∀ c ∈ extract_candidates P env textLen words rakeResults rakeKeywords tfidfResults
          maxCandidates,
        0 ≤ c.score ∧ c.score ≤ 1 ∧
          env.tokenCount c.phrase ≤ 3 ∧ 2 ≤ env.byteLen c.phrase) ∧
      (textLen < 50 → extract_candidates P env textLen words rakeResults rakeKeywords
        tfidfResults maxCandidates = []) := by
  by_cases h50 : textLen < 50
  · rw [extract_candidates, if_pos h50]
    exact ⟨by simp, by simp, by simp, fun _ => rfl⟩
  · refine ⟨?_, ?_, ?_, fun h => absurd h h50⟩
    · rw [extract_candidates, if_neg h50]
      dsimp only
      rw [List.length_take]
      exact min_le_left _ _
    · rw [extract_candidates, if_neg h50]
      dsimp only
      exact List.Pairwise.sublist (List.take_sublist _ _) (List.sorted_insertionSort _ _)
    · intro c hc
      rw [extract_candidates, if_neg h50] at hc
      dsimp only at hc
      replace hc := List.mem_of_mem_take hc
      replace hc := (List.perm_insertionSort (candGE P) _).mem_iff.mp hc
      obtain ⟨kv, hkv, rfl⟩ := List.mem_map.mp hc
      have hprops := foldl_upsertStem_pres P env
        (fun p => env.tokenCount p ≤ 3 ∧ 2 ≤ env.byteLen p)
        (fun s => 0 ≤ s ∧ s ≤ 1) _ [] (by simp) ?_ kv hkv
      · obtain ⟨⟨hq1, hq2⟩, hs1, hs2⟩ := hprops
        refine ⟨?_, ?_, hq1, hq2⟩
        · dsimp only
          split_ifs with hcnt
          · exact le_min (by linarith) (by norm_num)
          · exact hs1
        · dsimp only
          split_ifs with hcnt
          · exact min_le_right _ _
          · exact hs2
      · intro pr hpr
        obtain ⟨hmem, hfilt⟩ := List.mem_filter.mp hpr
        simp only [Bool.and_eq_true, decide_eq_true_eq] at hfilt
        refine ⟨⟨hfilt.1, hfilt.2⟩, ?_⟩
        by_cases ht : 0 < maxScore (tfidfResults.map Prod.snd)
        · rw [if_pos ht] at hmem
          refine foldl_upsertBoost_bound P _ _ _ _ ?_ ?_ pr hmem
          · refine foldl_upsertBoost_bound P _ _ _ _ ?_ ?_
            · split_ifs with hr
              · refine foldl_upsertMax_bound P _ _ _ [] (by simp) ?_
                intro q hq
                have h0 := hrake q hq
                have hle := mem_le_maxScore _ q.2 (List.mem_map_of_mem Prod.snd hq)
                exact ⟨div_nonneg h0 (le_of_lt hr), (div_le_one hr).mpr hle⟩
              · simp
            · intro q hq
              have h0 := htfidf q hq
              have hle := mem_le_maxScore _ q.2 (List.mem_map_of_mem Prod.snd hq)
              exact ⟨div_nonneg h0 (le_of_lt ht), (div_le_one ht).mpr hle⟩
          · intro q hq
            exact extract_tfidf_bigrams_bound P env words _ hget hsqrt1 hsqrt2 q hq
        · rw [if_neg ht] at hmem
          split_ifs at hmem with hr
          · refine foldl_upsertMax_bound P _ _ _ [] (by simp) ?_ pr hmem
            intro q hq
            have h0 := hrake q hq
            have hle := mem_le_maxScore _ q.2 (List.mem_map_of_mem Prod.snd hq)
            exact ⟨div_nonneg h0 (le_of_lt hr), (div_le_one hr).mpr hle⟩
          · simp at hmem

theorem extract_candidates_spec_witness :
    (extract_candidates ℕ envW 60 [] [(0, 1)] [] [] 5).length ≤ 5 ∧
      (extract_candidates ℕ envW 60 [] [(0, 1)] [] [] 5).Sorted (candGE ℕ) ∧
      (∀ c ∈ extract_candidates ℕ envW 60 [] [(0, 1)] [] [] 5,
        0 ≤ c.score ∧ c.score ≤ 1 ∧
          envW.tokenCount c.phrase ≤ 3 ∧ 2 ≤ envW.byteLen c.phrase) ∧
      (60 < 50 → extract_candidates ℕ envW 60 [] [(0, 1)] [] [] 5 = []) :=
  extract_candidates_spec ℕ envW 60 [] [(0, 1)] [] [] 5
    (by
      intro pr hpr
      simp only [List.append_nil, List.mem_singleton] at hpr
      subst hpr
      norm_num)
    (by simp)
    (by intro w; simp [envW, maxScore])
    (by intro q h; simp [envW])
    (by intro q M h1 h2 h3; simpa [envW] using h2)
